import Mathlib

/-!
Verification development for the doctor-name standardization pipeline
(`doctor_cleaner/cli.py` and `doctor_cleaner/config.py`).

The Python source is shallowly embedded: strings are Lean `String`s
(processed as `List Char`), pandas tables are lists of structures,
similarity scores are exact rationals, and the regular expressions of the
source are modelled by explicit executable scanners with the same
word-boundary semantics.  External libraries (rapidfuzz) are modelled from
their documented behaviour where the source calls into them.
-/

set_option maxRecDepth 4096

namespace DoctorCleaner

/-! ## Character and string utilities -/

/-- Python regex `\w`: letters, digits and underscore (ASCII inputs). -/
def isWordChar (c : Char) : Bool := c.isAlphanum || c = '_'

/-- Python `str.lower()` on ASCII data. -/
def lowerStr (s : List Char) : List Char := s.map Char.toLower

/-- Python whitespace class `\s` (ASCII). -/
def isSpaceChar (c : Char) : Bool :=
  c = ' ' || c = '\t' || c = '\n' || c = '\r' || c = '\x0b' || c = '\x0c'

/-- Python `str.strip()`. -/
def stripChars (s : List Char) : List Char :=
  ((s.dropWhile isSpaceChar).reverse.dropWhile isSpaceChar).reverse

/-- Python `str.title()`: a cased (alphabetic) character is uppercased when it
follows a non-alphabetic character and lowercased otherwise. -/
def pyTitleGo : Bool → List Char → List Char
  | _, [] => []
  | prevAlpha, c :: cs =>
    if c.isAlpha then
      (if prevAlpha then c.toLower else c.toUpper) :: pyTitleGo true cs
    else
      c :: pyTitleGo false cs

def pyTitle (s : List Char) : List Char := pyTitleGo false s

/-- Split on a character class, dropping empty fields (the shape produced by
`re.split` on stripped input, whose empty fields the callers discard). -/
def splitOnPred (p : Char → Bool) (s : List Char) : List (List Char) :=
  let rec go : List Char → List Char → List (List Char)
    | [], acc => if acc.isEmpty then [] else [acc.reverse]
    | c :: cs, acc =>
      if p c then
        if acc.isEmpty then go cs [] else acc.reverse :: go cs []
      else go cs (c :: acc)
  go s []

/-- Python `str.split()` (split on whitespace runs). -/
def splitWs (s : List Char) : List (List Char) := splitOnPred isSpaceChar s

/-- Join token lists with single spaces (`" ".join(...)`). -/
def joinSpace : List (List Char) → List Char
  | [] => []
  | [t] => t
  | t :: ts => t ++ ' ' :: joinSpace ts

/-- Collapse whitespace runs to one space (`MULTISPACE.sub(" ", s)`); the
flag records whether the previous character was whitespace. -/
def collapseSpacesGo : Bool → List Char → List Char
  | _, [] => []
  | inRun, c :: cs =>
    if isSpaceChar c then
      if inRun then collapseSpacesGo true cs else ' ' :: collapseSpacesGo true cs
    else c :: collapseSpacesGo false cs

def collapseSpaces (s : List Char) : List Char := collapseSpacesGo false s

/-- `str.isdigit()` for ASCII strings. -/
def isDigitStr (s : List Char) : Bool := !s.isEmpty && s.all Char.isDigit

/-! ## Longest common subsequence and rapidfuzz similarity model

rapidfuzz's `fuzz.ratio` is the normalized InDel similarity
`100 * (1 - dist/(|a|+|b|))`; the InDel distance equals
`|a| + |b| - 2 * lcs(a, b)`, so `ratio = 200 * lcs / (|a|+|b|)`. -/

/-- One row of the longest-common-subsequence recursion: `fprev` is the LCS
function of the first list's tail against arbitrary second lists. -/
def lcsAux (a : Char) (fprev : List Char → Nat) : List Char → Nat
  | [] => 0
  | b :: bs =>
    if a = b then fprev bs + 1
    else max (fprev (b :: bs)) (lcsAux a fprev bs)

/-- Longest common subsequence length of two character lists. -/
def lcs : List Char → List Char → Nat
  | [] => fun _ => 0
  | a :: as_ => lcsAux a (lcs as_)

/-- Modelled from rapidfuzz documentation: `fuzz.ratio` on two strings is the
normalized InDel similarity `100 * (1 - dist/(|a|+|b|))`, which equals
`200 * lcs / (|a|+|b|)`; two empty strings score 100. -/
def fuzzRatioQ (a b : List Char) : ℚ :=
  if a.length + b.length = 0 then 100
  else mkRat ((200 * lcs a b : Nat) : Int) (a.length + b.length)

/-- Exact division by 100 (`score / 100.0` in the source). -/
def div100 (q : ℚ) : ℚ := mkRat q.num (q.den * 100)

/-! ## Word-boundary scanners (models of the `re` patterns in `cli.py`) -/

/-- Match a literal pattern at the head of the input; return the remainder. -/
def matchLit : List Char → List Char → Option (List Char)
  | [], s => some s
  | _ :: _, [] => none
  | p :: ps, c :: cs => if p = c then matchLit ps cs else none

/-- `\b` holds before the current position: no previous char, or a non-word one. -/
def boundaryBefore : Option Char → Bool
  | none => true
  | some c => !isWordChar c

/-- `\b` holds after a match ending in a word char: end of input or non-word char. -/
def boundaryAfter : List Char → Bool
  | [] => true
  | c :: _ => !isWordChar c

/-- Try an ordered list of `(pattern, replacement)` rules at the current
position, each pattern bounded by `\b` on both sides; the first pattern that
matches wins (regex alternation order).  Returns the replacement, the rest of
the input and the last pattern character. -/
def tryRules : List (List Char × List Char) → List Char →
    Option (List Char × List Char × Char)
  | [], _ => none
  | (pat, rep) :: rules, s =>
    match pat with
    | [] => tryRules rules s
    | p0 :: ps =>
      match matchLit (p0 :: ps) s with
      | some rest =>
        if boundaryAfter rest then some (rep, rest, (p0 :: ps).getLast (by simp))
        else tryRules rules s
      | none => tryRules rules s

/-- One left-to-right pass of `re.sub` over `\b(p1|p2|...)\b` alternations.
When `eatDot` is set, a period directly after the match is also consumed
(for `TITLE_REGEX`'s trailing `\.?`). -/
def subRulesGo (rules : List (List Char × List Char)) (eatDot : Bool) :
    Nat → Option Char → List Char → List Char
  | 0, _, s => s
  | _ + 1, _, [] => []
  | fuel + 1, prev, c :: cs =>
    if boundaryBefore prev then
      match tryRules rules (c :: cs) with
      | some (rep, rest, lastC) =>
        if eatDot then
          match rest with
          | '.' :: rest2 => rep ++ subRulesGo rules eatDot fuel (some '.') rest2
          | _ => rep ++ subRulesGo rules eatDot fuel (some lastC) rest
        else rep ++ subRulesGo rules eatDot fuel (some lastC) rest
      | none => c :: subRulesGo rules eatDot fuel (some c) cs
    else c :: subRulesGo rules eatDot fuel (some c) cs

def subRules (rules : List (List Char × List Char)) (eatDot : Bool)
    (s : List Char) : List Char :=
  subRulesGo rules eatDot (s.length + 1) none s

/-- `re.search` for a `\b(p1|p2|...)\b` alternation: does any position match? -/
def searchRulesGo (rules : List (List Char × List Char)) :
    Option Char → List Char → Bool
  | _, [] => false
  | prev, c :: cs =>
    (boundaryBefore prev && (tryRules rules (c :: cs)).isSome) ||
      searchRulesGo rules (some c) cs

def searchRules (rules : List (List Char × List Char)) (s : List Char) : Bool :=
  searchRulesGo rules none s

/-- `ABD_PAT = \babd(?:\s*[\-\_])*\s*(?:el|al)\b`, substituted by `"abdel"`.
The gap `(?:\s*[\-\_])*\s*` matches any run over whitespace, `-` and `_`. -/
def isGapChar (c : Char) : Bool := isSpaceChar c || c = '-' || c = '_'

def abdSubGo : Nat → Option Char → List Char → List Char
  | 0, _, s => s
  | _ + 1, _, [] => []
  | fuel + 1, prev, c :: cs =>
    let noMatch := c :: abdSubGo fuel (some c) cs
    if boundaryBefore prev then
      match matchLit [ 'a', 'b', 'd'] (c :: cs) with
      | some rest3 =>
        let rest4 := rest3.dropWhile isGapChar
        let tryArt := fun (art : List Char) =>
          match matchLit art rest4 with
          | some rest5 => if boundaryAfter rest5 then some rest5 else none
          | none => none
        match tryArt [ 'e', 'l'] with
        | some rest5 => [ 'a', 'b', 'd', 'e', 'l'] ++ abdSubGo fuel (some 'l') rest5
        | none =>
          match tryArt [ 'a', 'l'] with
          | some rest5 => [ 'a', 'b', 'd', 'e', 'l'] ++ abdSubGo fuel (some 'l') rest5
          | none => noMatch
      | none => noMatch
    else noMatch

def abdSub (s : List Char) : List Char := abdSubGo (s.length + 1) none s

/-- `re.sub(r"\ba\s+(?=[a-z])", "al ", s)`: a standalone `a` followed by
whitespace and a lowercase letter becomes `al ` (the letter is a lookahead
and is not consumed). -/
def aloneASubGo : Nat → Option Char → List Char → List Char
  | 0, _, s => s
  | _ + 1, _, [] => []
  | fuel + 1, prev, c :: cs =>
    let noMatch := c :: aloneASubGo fuel (some c) cs
    if boundaryBefore prev && c = 'a' then
      match cs with
      | c2 :: _ =>
        if isSpaceChar c2 then
          match cs.dropWhile isSpaceChar with
          | d :: rest =>
            if 'a' ≤ d && d ≤ 'z' then
              [ 'a', 'l', ' '] ++ aloneASubGo fuel (some ' ') (d :: rest)
            else noMatch
          | [] => noMatch
        else noMatch
      | [] => noMatch
    else noMatch

def aloneASub (s : List Char) : List Char := aloneASubGo (s.length + 1) none s

/-- Remainder after the first occurrence of `close`, if any
(the non-greedy `.*?` of the bracket patterns stops at the first closer). -/
def afterCloser (close : Char) : List Char → Option (List Char)
  | [] => none
  | c :: cs => if c = close then some cs else afterCloser close cs

/-- `BRACKETED = (\{.*?\}|\[.*?\]|\(.*?\)|\$\{.*?\})`, substituted by a space. -/
def bracketedSubGo : Nat → List Char → List Char
  | 0, s => s
  | _ + 1, [] => []
  | fuel + 1, c :: cs =>
    if c = '{' then
      match afterCloser '}' cs with
      | some rest => ' ' :: bracketedSubGo fuel rest
      | none => c :: bracketedSubGo fuel cs
    else if c = '[' then
      match afterCloser ']' cs with
      | some rest => ' ' :: bracketedSubGo fuel rest
      | none => c :: bracketedSubGo fuel cs
    else if c = '(' then
      match afterCloser ')' cs with
      | some rest => ' ' :: bracketedSubGo fuel rest
      | none => c :: bracketedSubGo fuel cs
    else if c = '$' then
      match cs with
      | '{' :: cs2 =>
        match afterCloser '}' cs2 with
        | some rest => ' ' :: bracketedSubGo fuel rest
        | none => c :: bracketedSubGo fuel cs
      | _ => c :: bracketedSubGo fuel cs
    else c :: bracketedSubGo fuel cs

def bracketedSub (s : List Char) : List Char := bracketedSubGo (s.length + 1) s

/-- One pass of `re.sub(r'\(...[^X]*...\)', '', text)` for a single bracket
pair, removing the bracketed content entirely (used by
`extract_person_name_smart`). -/
def stripBracketGo (openC closeC : Char) : Nat → List Char → List Char
  | 0, s => s
  | _ + 1, [] => []
  | fuel + 1, c :: cs =>
    if c = openC then
      match afterCloser closeC cs with
      | some rest => stripBracketGo openC closeC fuel rest
      | none => c :: stripBracketGo openC closeC fuel cs
    else c :: stripBracketGo openC closeC fuel cs

def stripBracket (openC closeC : Char) (s : List Char) : List Char :=
  stripBracketGo openC closeC (s.length + 1) s

/-- `NON_WORD.sub(" ", s)` with `NON_WORD = [^\w\s\-]`. -/
def nonWordSub (s : List Char) : List Char :=
  s.map (fun c => if isWordChar c || isSpaceChar c || c = '-' then c else ' ')

/-- `re.sub(r'[^\w\s]', ' ', text)` (the hyphen is not preserved here). -/
def punctSub (s : List Char) : List Char :=
  s.map (fun c => if c.isAlphanum || c = '_' || isSpaceChar c then c else ' ')

/-! ## Constant tables of `cli.py` -/

/-- `BRANCH_CODES`, in the sorted order used to build `BRANCH_CODES_REGEX`. -/
def branchCodes : List String :=
  ["afw", "ahj", "akw", "alw", "fwz", "snb", "trad", "trd"]

/-- The alternatives of `TITLE_REGEX`, in source order. -/
def titleWords : List String :=
  ["dr", "doctor", "prof", "mr", "mrs", "ms", "miss", "md", "phd", "msc",
   "bsc", "consultant", "specialist"]

/-- `SERVICE_WORDS`. -/
def serviceWords : List String :=
  ["clinic", "screening", "dental", "endoscopy", "endoscopic", "er", "icu",
   "ent", "nutrition", "radiology", "imaging", "xray", "x-ray", "lab", "labs",
   "laboratory", "unit", "department", "dept", "center", "centre",
   "polyclinic", "ward", "opd", "ipd", "ot", "theatre", "therapy", "physio",
   "orthopedic", "orthopaedic", "derma", "dermatology", "pediatrics",
   "paediatrics", "gyne", "gyn", "obgyn", "ophthalmology", "urology",
   "cardio", "cardiology", "hepatology", "gastro", "snb", "fwz", "trd",
   "trad", "hospital", "homecare", "home", "care"]

/-- `TOKEN_MAP`. -/
def tokenMapPairs : List (String × String) :=
  [("mohammed", "mohamed"), ("muhammad", "mohamed"), ("mohamad", "mohamed"),
   ("muhamad", "mohamed"), ("ahmad", "ahmed"), ("youssef", "yousef"),
   ("yusuf", "yousef"), ("yousif", "yousef"), ("hussain", "hussein"),
   ("khalid", "khaled"), ("tariq", "tarek"), ("tareq", "tarek"),
   ("al", "el"), ("al-", "el"), ("el-", "el")]

/-- `DEGREE_TOKENS`. -/
def degreeTokens : List String :=
  ["md", "phd", "msc", "bsc", "frcs", "mrcp", "mrcgp", "facc", "facs",
   "fcps", "mbbs", "do", "dds", "dmd", "mba", "dch"]

/-- `REPLACEMENTS`: canonical spelling to its known misspellings. -/
def replacements : List (String × List String) :=
  [("abdelfatah", ["abd el fattah", "abd el fatah", "abdel fattah",
     "abdel fatah", "abdelfattah", "abdul fatah"]),
   ("abdelrazek", ["abd el razek", "abd el razik", "abdel razek",
     "abdel razik", "abdelrazik", "abdul razek"]),
   ("abdelrahman", ["abd el rahman", "abdel rahman", "abd el rhman",
     "abdel rhman", "abdulrahman", "abdurrahman"]),
   ("abdallah", ["abd allah", "abdellah", "abd ellah", "abdullah",
     "abdulah", "abdulla"]),
   ("mohamed", ["mohammed", "mohamad", "muhamed", "mohammod", "mohammad",
     "muhamad", "muhammed"]),
   ("ahmed", ["ahmad", "ahmet", "ahmmed", "ahmd", "ahmid", "ahmade"]),
   ("mostafa", ["mustafa", "moustafa", "mustpha", "mostpha", "mustapha",
     "mstafa"]),
   ("fatma", ["fatima", "fatimah", "fatmah", "fatmeh", "fatemah", "fatema",
     "fatimeh"]),
   ("yousef", ["youssef", "yousif", "yusef", "yusif", "youssif", "yosef",
     "usif"]),
   ("sherif", ["shareef", "shereef", "sharif", "shareif", "sheref",
     "sharef"]),
   ("fathy", ["fathi", "fathii", "fathie", "fatthy", "fathey"]),
   ("ali", ["aly", "alee", "alii", "aalee", "aaly"])]

/-- Stable insertion keeping longer patterns first
(`sorted(..., key=len, reverse=True)` of `build_replacements_pattern`). -/
def insertByLenDesc (x : String × String) :
    List (String × String) → List (String × String)
  | [] => [x]
  | y :: ys =>
    if y.1.length < x.1.length then x :: y :: ys else y :: insertByLenDesc x ys

def sortByLenDesc (l : List (String × String)) : List (String × String) :=
  l.foldr insertByLenDesc []

/-- The `(wrong, correct)` pairs of `REPL_PAT`/`REPL_MAP`, longest wrong first. -/
def replPairs : List (String × String) :=
  sortByLenDesc
    (replacements.flatMap (fun p => p.2.map (fun w => (w, p.1))))

def mkRules (ps : List (String × String)) : List (List Char × List Char) :=
  ps.map (fun p => (p.1.toList, p.2.toList))

def replRules : List (List Char × List Char) := mkRules replPairs

def branchRules : List (List Char × List Char) :=
  mkRules (branchCodes.map (fun w => (w, " ")))

def titleRules : List (List Char × List Char) :=
  mkRules (titleWords.map (fun w => (w, " ")))

/-- `SERVICE_REGEX` alternatives, longest first. -/
def serviceRules : List (List Char × List Char) :=
  mkRules (sortByLenDesc (serviceWords.map (fun w => (w, " "))))

/-- `apply_replacements`. -/
def applyReplacements (s : List Char) : List Char := subRules replRules false s

/-! ## `normalize_tokens`, `clean_name`, `extract_person_name_smart`,
`is_facility` -/

def tokenMapApply (t : List Char) : List Char :=
  match tokenMapPairs.find? (fun p => p.1.toList = t) with
  | some p => p.2.toList
  | none => t

/-- The ordinary-token path of the loop of `normalize_tokens`: apply
`TOKEN_MAP` and (facility mode only) skip a token equal to the last appended
one. -/
def tokenStep (isPerson : Bool) (t : List Char) (out : List (List Char)) :
    List (List Char) :=
  let t2 := tokenMapApply t
  if !isPerson && !out.isEmpty && out.getLast? = some t2 then out
  else out ++ [t2]

/-- The token loop of `normalize_tokens`: drops empty and degree tokens,
merges an `al`/`el` article with a following non-empty token (without any
deduplication check), and otherwise takes the ordinary path.  The source's
index-based `while` loop is structured as a two-level list match: an article
as the final token has no follower and takes the ordinary path. -/
def tokenLoopGo (isPerson : Bool) : List (List Char) → List (List Char) →
    List (List Char)
  | [], out => out
  | [t], out =>
    if t.isEmpty || t ∈ degreeTokens.map String.toList then out
    else tokenStep isPerson t out
  | t :: r :: rest, out =>
    if t.isEmpty || t ∈ degreeTokens.map String.toList then
      tokenLoopGo isPerson (r :: rest) out
    else if (t = [ 'a', 'l'] || t = [ 'e', 'l']) && !r.isEmpty then
      tokenLoopGo isPerson rest (out ++ [[ 'e', 'l'] ++ r])
    else tokenLoopGo isPerson (r :: rest) (tokenStep isPerson t out)

/-- `normalize_tokens(name, is_person=...)` (token lists as `List Char`). -/
def normalizeTokensL (name : String) (isPerson : Bool) : List (List Char) :=
  let s0 := stripChars (lowerStr name.toList)
  if s0.isEmpty then []
  else
    let s1 := bracketedSub s0
    let s2 := subRules branchRules false s1
    let s3 := subRules titleRules true s2
    let s4 := nonWordSub s3
    let s5 := s4.map (fun c => if c = '_' then ' ' else c)
    let s6 := s5.map (fun c => if c = '.' then ' ' else c)
    let s7 := stripChars (collapseSpaces s6)
    let s8 := applyReplacements s7
    let s9 := abdSub s8
    let s10 := aloneASub s9
    let toks := splitOnPred (fun c => isSpaceChar c || c = '-') s10
    let out := tokenLoopGo isPerson toks []
    out.filter (fun w => 1 < w.length)

def normalizeTokens (name : String) (isPerson : Bool) : List String :=
  (normalizeTokensL name isPerson).map String.mk

/-- `clean_name(name, is_person=...)`. -/
def cleanName (name : String) (isPerson : Bool) : String :=
  String.mk (pyTitle (joinSpace (normalizeTokensL name isPerson)))

/-- The title set of `extract_person_name_smart`. -/
def extractTitles : List String :=
  ["dr", "doctor", "prof", "mr", "mrs", "ms", "miss", "md", "phd"]

/-- `extract_person_name_smart`. -/
def extractPersonNameSmart (raw : String) : String :=
  let text := stripChars raw.toList
  if text.isEmpty then ""
  else
    let t1 := stripBracket '(' ')' text
    let t2 := stripBracket '[' ']' t1
    let t3 := stripBracket '{' '}' t2
    let t4 := punctSub t3
    let words := splitWs t4
    let keep := words.filter (fun w =>
      let wl := String.mk (lowerStr w)
      !(wl ∈ extractTitles || wl ∈ serviceWords || wl ∈ branchCodes ||
        wl.length < 2 || isDigitStr (lowerStr w)))
    String.mk (stripChars (collapseSpaces (joinSpace (keep.map pyTitle))))

/-- `serviceSearch`: `SERVICE_REGEX.search(n)` as a Boolean. -/
def serviceSearch (n : List Char) : Bool := searchRules serviceRules n

/-- The suffix alternatives of the `\b(...)\b$` check in `is_facility`. -/
def facilitySuffixes : List String :=
  ["clinic", "centre", "center", "department", "unit", "polyclinic",
   "hospital", "ward"]

/-- `re.search(r"\b(clinic|...)\b$", n)`: `n` ends in a suffix word preceded
by a word boundary. -/
def endsWithFacilitySuffix (n : List Char) : Bool :=
  facilitySuffixes.any (fun w =>
    let wl := w.toList
    decide (wl.length ≤ n.length) &&
      n.drop (n.length - wl.length) = wl &&
      boundaryBefore (n.take (n.length - wl.length)).getLast?)

def startsWithLit (lit : String) (n : List Char) : Bool :=
  n.take lit.length = lit.toList

/-- `len(re.findall(r"\w+", n))`. -/
def wordRunCount (n : List Char) : Nat :=
  (splitOnPred (fun c => !isWordChar c) n).length

/-- `is_facility`. -/
def isFacility (name : String) : Bool :=
  let n := stripChars (lowerStr name.toList)
  if n.isEmpty then false
  else if serviceSearch n then true
  else if endsWithFacilitySuffix n then true
  else if startsWithLit "dr " n || startsWithLit "dr." n ||
      startsWithLit "doctor " n then
    if wordRunCount n ≤ 3 && !serviceSearch n then false else false
  else false

/-! ## Specialty normalization -/

/-- `SPECIALTY_STOPWORDS`. -/
def specialtyStopwords : List String :=
  ["service", "services", "dept", "department", "unit", "clinic", "center",
   "centre", "polyclinic", "ward", "opd", "ipd", "section", "division", "of"]

/-- `SPECIALTY_CANONICAL`, in dict (insertion) order. -/
def specialtyCanonical : List (String × List String) :=
  [("dental", ["dentistry", "dental service", "dental clinic", "dent",
     "oral", "odontology"]),
   ("dermatology", ["derma", "skin", "dermatologic", "dermatology clinic"]),
   ("ent", ["otolaryngology", "ear nose throat", "ent clinic",
     "ent department"]),
   ("pediatrics", ["paediatrics", "peds", "children", "child health",
     "pediatrics clinic"]),
   ("gynecology & obstetrics", ["gyn", "obgyn", "ob/gyn", "gyne",
     "obstetrics", "obstetric", "ob"]),
   ("cardiology", ["cardio", "heart", "cardiac"]),
   ("urology", ["uro", "urinary"]),
   ("radiology", ["imaging", "xray", "x-ray", "radiology dept",
     "diagnostic imaging"]),
   ("gastroenterology", ["gastro", "gi", "digestive"]),
   ("hepatology", ["hepa", "liver"]),
   ("ophthalmology", ["ophtha", "ophthalmic", "eye", "eye clinic"]),
   ("orthopedics", ["orthopedic", "orthopaedic", "ortho", "bones",
     "orthopedics clinic"]),
   ("nutrition", ["diet", "dietary", "nutrition clinic"]),
   ("icu", ["intensive care", "critical care"]),
   ("er", ["emergency", "a&e", "casualty", "ed", "emergency department",
     "accident & emergency"]),
   ("endoscopy", ["endoscopic", "endoscopy unit"]),
   ("lab", ["laboratory", "labs", "pathology", "lab services"]),
   ("neurology", ["neuro", "nervous system"]),
   ("oncology", ["cancer", "onco"]),
   ("nephrology", ["renal", "kidney"]),
   ("endocrinology", ["endo", "hormones"]),
   ("psychiatry", ["psych", "mental health"]),
   ("pulmonology", ["respiratory", "chest", "pulmonary"])]

/-- `SPEC_TOK_MAP`. -/
def specTokPairs : List (String × String) :=
  [("obgyn", "obgyn"), ("ob", "obstetrics"), ("gyn", "gyne"),
   ("gi", "gastro"), ("ent", "ent"), ("derma", "derma"),
   ("ortho", "ortho"), ("ophtha", "ophtha"), ("x-ray", "xray"),
   ("xray", "xray"), ("a&e", "er"), ("ed", "er")]

def specTokApply (t : List Char) : List Char :=
  match specTokPairs.find? (fun p => p.1.toList = t) with
  | some p => p.2.toList
  | none => t

/-- `_clean_specialty_text`. -/
def cleanSpecialtyText (x : String) : String :=
  let txt := stripChars (lowerStr x.toList)
  if txt.isEmpty then ""
  else
    let t1 := nonWordSub txt
    let toks := splitOnPred
      (fun c => isSpaceChar c || c = '/' || c = ',' || c = '-' || c = '_') t1
    let toks2 := toks.filter (fun t => !(String.mk t ∈ specialtyStopwords))
    String.mk (joinSpace (toks2.map specTokApply))

/-- Contiguous windows of length `n` of a list (`l.length - n + 1` of them). -/
def windowsOf (n : Nat) : List Char → List (List Char)
  | [] => if n = 0 then [[]] else []
  | c :: cs =>
    if n ≤ (c :: cs).length then (c :: cs).take n :: windowsOf n cs else []

/-- Modelled from rapidfuzz documentation: `fuzz.partial_ratio` compares the
shorter string against every same-length contiguous window of the longer one
and keeps the best `fuzz.ratio`. -/
def partialRatioQ (a b : List Char) : ℚ :=
  let sh := if a.length ≤ b.length then a else b
  let lo := if a.length ≤ b.length then b else a
  if sh.isEmpty then (if lo.isEmpty then 100 else 0)
  else ((windowsOf sh.length lo).map (fuzzRatioQ sh)).foldl max 0

/-- One step of the fuzzy pass of `normalize_specialty`
(`if sc > score: score, best = sc, canon`). -/
def specFuzzyStep (base : String) (st : Option String × ℚ)
    (pk : String × String) : Option String × ℚ :=
  let sc := partialRatioQ base.toList pk.2.toList
  if st.2 < sc then (some pk.1, sc) else st

/-- The fuzzy pass of `normalize_specialty`: best `partial_ratio` over every
`(canon, key)` pair in dict order, keeping strictly increasing scores. -/
def specialtyFuzzyBest (base : String) : Option String × ℚ :=
  (specialtyCanonical.flatMap
    (fun p => (p.1 :: p.2).map (fun k => (p.1, k)))).foldl
    (specFuzzyStep base) (none, 0)

/-- `re.search(rf"\b{re.escape(k)}\b", base)` as a Boolean. -/
def searchPhrase (k : String) (base : String) : Bool :=
  searchRules [(k.toList, [])] base.toList

/-- `normalize_specialty`; `advanced` is the `ADVANCED_MODE` flag. -/
def normalizeSpecialty (advanced : Bool) (val : String) : String :=
  let base := cleanSpecialtyText val
  if base = "" then "Unknown"
  else
    match specialtyCanonical.find? (fun p => base = p.1 || base ∈ p.2) with
    | some p => String.mk (pyTitle p.1.toList)
    | none =>
      match specialtyCanonical.find?
          (fun p => (p.1 :: p.2).any (fun k => searchPhrase k base)) with
      | some p => String.mk (pyTitle p.1.toList)
      | none =>
        if advanced then
          match specialtyFuzzyBest base with
          | (some best, score) =>
            if 88 ≤ score then String.mk (pyTitle best.toList)
            else String.mk (pyTitle base.toList)
          | (none, _) => String.mk (pyTitle base.toList)
        else String.mk (pyTitle base.toList)

/-! ## Golden reference table and repository -/

/-- One row of the golden reference table. -/
structure GRow where
  biName : String
  standardName : String
  origSpecialty : String
  aliasClean : String
deriving DecidableEq, Repr

/-- Keep the first row per key: a row is kept when its key was not seen
among earlier rows (`seen` carries the keys already kept). -/
def firstOccBy {α : Type} (key : α → String) (seen : List String) :
    List α → List α
  | [] => []
  | x :: xs =>
    if key x ∈ seen then firstOccBy key seen xs
    else x :: firstOccBy key (key x :: seen) xs

/-- `drop_duplicates(subset=[key], keep="last")`. -/
def dedupKeepLast {α : Type} (key : α → String) (l : List α) : List α :=
  (firstOccBy key [] l.reverse).reverse

/-- An abstract file system: path to state.  A `file` carries raw headers and
rows of optional (possibly-NaN) cells. -/
inductive FileState where
  | absent
  | unreadable
  | file (headers : List String) (rows : List (List (Option String)))
deriving DecidableEq

def FileSys : Type := String → FileState

/-- The two failure modes `load_golden_map` can raise: a read failure from
`pd.read_excel`/`pd.read_csv`, or the `ValueError` for unresolvable columns. -/
inductive LoadErr where
  | readFailure
  | schemaFailure
deriving DecidableEq, Repr

/-- The candidate paths of `config.get_best_golden_reference`, in priority
order, relative to the project directory. -/
def goldenCandidates : List String :=
  ["reference/golden_doctors.xlsx", "reference/golden_reference.xlsx",
   "golden_reference.xlsx", "doctor_cleaner/golden_reference.xlsx"]

def fsExists (fs : FileSys) (p : String) : Bool :=
  match fs p with
  | .absent => false
  | _ => true

/-- `get_best_golden_reference`: first existing candidate. -/
def getBestGoldenReference (fs : FileSys) : Option String :=
  goldenCandidates.find? (fsExists fs)

/-- The path-resolution logic of `load_golden_map`: no path means
auto-discovery; an explicit but missing path falls back to auto-discovery. -/
def resolveGoldenPath (fs : FileSys) : Option String → Option String
  | none => getBestGoldenReference fs
  | some p => if fsExists fs p then some p else getBestGoldenReference fs

/-- `_normalize_cols` for one column name. -/
def normalizeCol (c : String) : String :=
  String.mk (((stripChars (collapseSpaces c.toList)).map Char.toLower).map
    (fun ch => if ch = '_' then ' ' else ch))

/-- The index of the last column whose normalized name is in `names`
(later matches overwrite earlier ones in `col_map`). -/
def lastColIdx (names : List String) (cols : List String) : Option Nat :=
  ((cols.enum.filter (fun p => p.2 ∈ names)).getLast?).map (·.1)

def cellAt (r : List (Option String)) (i : Nat) : Option String :=
  (r.get? i).join

/-- Parse a raw golden file: normalize headers, resolve the `BI Name` /
`Standard_Name` / specialty columns, fail when the required two are missing,
drop rows with missing required cells, compute `Alias_Clean` and keep the
last row per `Alias_Clean`. -/
def parseGolden (headers : List String) (rows : List (List (Option String))) :
    Except LoadErr (List GRow) :=
  let cols := headers.map normalizeCol
  let biIdx := lastColIdx ["bi name", "bi names"] cols
  let stdIdx := lastColIdx
    ["standard name", "standard_name", "standard names"] cols
  let specIdx := lastColIdx
    ["original specialty", "original_specialty", "specialty", "speciality"]
    cols
  match biIdx, stdIdx with
  | some bi, some st =>
    let parsed := rows.filterMap (fun r =>
      match cellAt r bi, cellAt r st with
      | some b, some s =>
        some (GRow.mk b s
          (match specIdx with
           | some sp => (cellAt r sp).getD ""
           | none => "")
          (cleanName b true))
      | _, _ => none)
    .ok (dedupKeepLast GRow.aliasClean parsed)
  | _, _ => .error .schemaFailure

/-- Reading a resolved path: a missing or unreadable file raises from the
pandas reader, an existing file is parsed. -/
def readGolden (fs : FileSys) (p : String) : Except LoadErr (List GRow) :=
  match fs p with
  | .absent => .error .readFailure
  | .unreadable => .error .readFailure
  | .file h r => parseGolden h r

/-- `load_golden_map(path)`: when nothing resolves, degrade to an empty
table; otherwise read the resolved path (errors propagate). -/
def loadGoldenMap (fs : FileSys) (path : Option String) :
    Except LoadErr (List GRow) :=
  match resolveGoldenPath fs path with
  | none => .ok []
  | some p => readGolden fs p

/-! ## Matcher: `find_best_match_in_golden` -/

/-- `fuzz.ratio(a.lower(), b.lower()) / 100.0`. -/
def simPairQ (a b : String) : ℚ :=
  div100 (fuzzRatioQ (lowerStr a.toList) (lowerStr b.toList))

/-- Per-row fuzzy score: `max(score1, score2)` of the loop body. -/
def rowScore (extracted : String) (r : GRow) : ℚ :=
  max (simPairQ extracted r.biName) (simPairQ extracted r.aliasClean)

/-- The fuzzy scan over the golden rows, keeping a strictly better score that
also meets the threshold. -/
def fuzzyScan (extracted : String) (threshold : ℚ) :
    List GRow → Option String × ℚ → Option String × ℚ
  | [], st => st
  | r :: rs, st =>
    let ms := rowScore extracted r
    if st.2 < ms ∧ threshold ≤ ms then
      fuzzyScan extracted threshold rs (some r.biName, ms)
    else fuzzyScan extracted threshold rs st

/-- `find_best_match_in_golden(extracted_name, golden_df, threshold)`;
`advanced` is the `ADVANCED_MODE` flag. -/
def findBestMatchInGolden (advanced : Bool) (extracted : String)
    (g : List GRow) (threshold : ℚ) : Option String × ℚ :=
  if extracted = "" ∨ g = [] then (none, 0)
  else if extracted ∈ g.map GRow.biName then (some extracted, 1)
  else
    match g.find? (fun r => r.aliasClean = cleanName extracted true) with
    | some r => (some r.biName, 1)
    | none =>
      if advanced then fuzzyScan extracted threshold g (none, 0)
      else (none, 0)

/-! ## Clustering: `smart_merge_persons` (the `ADVANCED_MODE` branch) -/

/-- Lexicographic (code point) order on char lists, as Python compares
strings. -/
def ltCharList : List Char → List Char → Bool
  | [], [] => false
  | [], _ :: _ => true
  | _ :: _, [] => false
  | x :: xs, y :: ys => x < y || (x = y && ltCharList xs ys)

def ltStr (a b : String) : Bool := ltCharList a.toList b.toList

/-- Insert into a sorted duplicate-free list (`sorted(set(...))`). -/
def insertSortedSet (x : List Char) : List (List Char) → List (List Char)
  | [] => [x]
  | y :: ys =>
    if x = y then y :: ys
    else if ltCharList x y then x :: y :: ys
    else y :: insertSortedSet x ys

def sortedSet (l : List (List Char)) : List (List Char) :=
  l.foldr insertSortedSet []

/-- Modelled from rapidfuzz documentation: `fuzz.token_set_ratio` splits both
strings into sorted unique token lists, forms the intersection and the two
differences, and returns the best `fuzz.ratio` among the three joined
combinations. -/
def tokenSetRatioQ (s1 s2 : List Char) : ℚ :=
  let ta := sortedSet (splitWs s1)
  let tb := sortedSet (splitWs s2)
  let sect := ta.filter (fun t => t ∈ tb)
  let dab := ta.filter (fun t => !(t ∈ tb))
  let dba := tb.filter (fun t => !(t ∈ ta))
  let t0 := joinSpace sect
  let t1 := joinSpace (sect ++ dab)
  let t2 := joinSpace (sect ++ dba)
  max (fuzzRatioQ t0 t1) (max (fuzzRatioQ t0 t2) (fuzzRatioQ t1 t2))

/-- `_block_key` of `smart_merge_persons`. -/
def blockKey (toks : List (List Char)) : List Char × List Char × Nat :=
  match toks with
  | [] => ([], [], 0)
  | t :: rest =>
    (t, (t :: rest).getLast (by simp),
      if (t :: rest).length ≤ 2 then 0
      else if (t :: rest).length ≤ 4 then 1 else 2)

/-- Internal per-row data of `smart_merge_persons` (`Std_Tokens`,
`Family_Name`, `Block`). -/
structure MergeRec where
  name : String
  toks : List (List Char)
  fam : String
  block : List Char × List Char × Nat
deriving DecidableEq

def mkMergeRec (nm : String) : MergeRec :=
  { name := nm
    toks := normalizeTokensL nm true
    fam := String.mk (lowerStr ((splitWs nm.toList).getLastD []))
    block := blockKey (normalizeTokensL nm true) }

/-- Python dict assignment: overwrite an existing key or append. -/
def dictSet (m : List (String × String)) (k v : String) :
    List (String × String) :=
  if m.any (fun p => p.1 = k) then
    m.map (fun p => if p.1 = k then (k, v) else p)
  else m ++ [(k, v)]

def dictGet (m : List (String × String)) (k : String) : Option String :=
  (m.find? (fun p => p.1 = k)).map (·.2)

/-- Python set insertion. -/
def setAdd (u : List (String × String)) (p : String × String) :
    List (String × String) :=
  if p ∈ u then u else u ++ [p]

/-- `sorted((a, b))` on two strings. -/
def sortPair (a b : String) : String × String :=
  if ltStr b a then (b, a) else (a, b)

/-- The ordered pairs `(i, j)` with `i < j < n`, in nested-loop order. -/
def allPairs (n : Nat) : List (Nat × Nat) :=
  (List.range n).flatMap
    (fun i => ((List.range n).filter (fun j => i < j)).map (fun j => (i, j)))

/-- `AUTO_MERGE_THRESHOLD = 0.90`. -/
def autoMergeThreshold : ℚ := mkRat 9 10

/-- `UNSURE_THRESHOLD_DEFAULT = 0.70`. -/
def unsureThresholdDefault : ℚ := mkRat 7 10

/-- The fixed `threshold=0.8` of the `find_best_match_in_golden` call in
`process_file`. -/
def goldenMatchThreshold : ℚ := mkRat 8 10

/-- The body of the pairwise loop of `smart_merge_persons` for one pair;
groupby is modelled by the block-equality guard (pairs are only compared
within a block, and cross-block pairs never touch the same mapping key). -/
def mergePairStep (recs : List MergeRec) (u : ℚ)
    (st : List (String × String) × List (String × String)) (ij : Nat × Nat) :
    List (String × String) × List (String × String) :=
  match recs.get? ij.1, recs.get? ij.2 with
  | some ri, some rj =>
    if ri.block = rj.block then
      if ri.fam ≠ rj.fam ∨ ri.toks = [] ∨ rj.toks = [] then st
      else
        let sim := div100 (tokenSetRatioQ (joinSpace ri.toks) (joinSpace rj.toks))
        if autoMergeThreshold ≤ sim then
          let co :=
            if rj.toks.length < ri.toks.length then (ri.name, rj.name)
            else if ri.toks.length < rj.toks.length then (rj.name, ri.name)
            else if (sortedSet rj.toks).length ≤ (sortedSet ri.toks).length
              then (ri.name, rj.name)
            else (rj.name, ri.name)
          (dictSet st.1 co.2 co.1, st.2)
        else if u ≤ sim then (st.1, setAdd st.2 (sortPair ri.name rj.name))
        else st
    else st
  | _, _ => st

/-- The accumulated `mapping` and `unsure_pairs` of `smart_merge_persons`. -/
def smartMergeScan (recs : List MergeRec) (u : ℚ) :
    List (String × String) × List (String × String) :=
  (allPairs recs.length).foldl (mergePairStep recs u) ([], [])

/-- `smart_merge_persons` restricted to its observable effect: for each input
`Standard_Name` (in row order), the rewritten name and the `Not_Sure` flag.
Models the `ADVANCED_MODE = True` branch (otherwise the function returns its
input unchanged). -/
def smartMergePersons (names : List String) (u : ℚ) :
    List (String × String) :=
  let recs := names.map mkMergeRec
  let mu := smartMergeScan recs u
  let unsureNames := mu.2.flatMap (fun p => [p.1, p.2])
  names.map (fun nm =>
    let nm2 := (dictGet mu.1 nm).getD nm
    (nm2, if nm2 ∈ unsureNames then "Not Sure" else ""))

/-! ## The person-processing slice of `process_file` -/

/-- The person-sheet fields produced by `process_file`. -/
structure PersonRec where
  biName : String
  extractedName : String
  goldenMatch : String
  matchScore : ℚ
  standardName : String
  notSure : String
deriving DecidableEq, Repr

/-- `dict(zip(golden['BI Name'], golden['Standard_Name']))`: on duplicate
keys the later row wins. -/
def goldenDirectLookup (g : List GRow) (bi : String) : Option String :=
  (g.reverse.find? (fun r => r.biName = bi)).map (·.standardName)

/-- The matching stage of `process_file` for one person row, in the
non-empty-golden branch (direct map, then smart match for non-empty
extracted names; an empty extracted name leaves `Standard_Name` as the
initial empty string). -/
def matchPerson (advanced : Bool) (g : List GRow) (bi : String) : PersonRec :=
  let ex := extractPersonNameSmart bi
  match goldenDirectLookup g bi with
  | some std => ⟨bi, ex, bi, 1, std, ""⟩
  | none =>
    if ex = "" then ⟨bi, ex, "", 0, "", ""⟩
    else
      match findBestMatchInGolden advanced ex g goldenMatchThreshold with
      | (some m, sc) =>
        ⟨bi, ex, m, sc,
          ((g.find? (fun r => r.biName = m)).map (·.standardName)).getD "", ""⟩
      | (none, _) => ⟨bi, ex, "", 0, ex, ""⟩

/-- The person pipeline of `process_file`: classification, smart extraction,
golden matching, then smart clustering when fuzzy libraries are available
and some person is unmatched. -/
def processPersons (advanced : Bool) (threshold : ℚ) (g : List GRow)
    (bis : List String) : List PersonRec :=
  let persons := bis.filter (fun b => !isFacility b)
  if g = [] then
    persons.map (fun b =>
      let ex := extractPersonNameSmart b
      ⟨b, ex, "", 0, cleanName ex true, ""⟩)
  else
    let recs := persons.map (matchPerson advanced g)
    if advanced && recs.any (fun r => r.goldenMatch = "") then
      let merged := smartMergePersons (recs.map (·.standardName)) threshold
      List.zipWith
        (fun (r : PersonRec) (p : String × String) =>
          { r with standardName := p.1, notSure := p.2 })
        recs merged
    else recs

/-! ## Learning: `update_golden_from_review` -/

/-- A reviewed row after column resolution: the raw `BI Name`,
`Standard_Name` and specialty-like cells (possibly missing). -/
structure RevRow where
  biName : Option String
  stdName : Option String
  spec : Option String
deriving DecidableEq

/-- `rev_df`: drop rows with missing required cells and compute
`Alias_Clean`. -/
def revProcess (rev : List RevRow) : List GRow :=
  rev.filterMap (fun r =>
    match r.biName, r.stdName with
    | some b, some s => some (GRow.mk b s (r.spec.getD "") (cleanName b true))
    | _, _ => none)

/-- Key order for `sort_values(by="Alias_Clean")`. -/
def rowKeyLe (a b : GRow) : Bool := !ltStr b.aliasClean a.aliasClean

/-- `sort_values(by="Alias_Clean")` output check: the `Alias_Clean` keys
appear in nondecreasing order. -/
def keysOrdered : List GRow → Bool
  | [] => true
  | [_] => true
  | a :: b :: rest => rowKeyLe a b && keysOrdered (b :: rest)

/-- One concrete realization of `sort_values(by="Alias_Clean")`: a stable
insertion sort. pandas' default sort kind is quicksort, which is documented
as not stable, so this is only one of the admitted executions; the merge
itself is modelled by the relation `updateGoldenFromReview` below, which
admits every key-sorted permutation of the input. -/
def insertRowSorted (x : GRow) : List GRow → List GRow
  | [] => [x]
  | y :: ys =>
    if rowKeyLe x y then x :: y :: ys else y :: insertRowSorted x ys

def sortByAlias (l : List GRow) : List GRow := l.foldr insertRowSorted []

/-- The merge of `update_golden_from_review`: concatenate base and reviewed
rows, sort by `Alias_Clean`, keep the last row per key. `sort_values` uses
pandas' default quicksort, which is documented as not stable, so the model
is a relation admitting every permutation of the concatenated rows whose
keys are in nondecreasing order; rows with equal keys may appear in any
relative order. -/
def updateGoldenFromReview (base : List GRow) (rev : List RevRow)
    (out : List GRow) : Prop :=
  ∃ s : List GRow, s.Perm (base ++ revProcess rev) ∧
    keysOrdered s = true ∧ out = dedupKeepLast GRow.aliasClean s

/-- One admitted execution of the merge, realizing the sort by the stable
insertion sort: used to evaluate the pipeline on concrete inputs. -/
def updateGoldenRun (base : List GRow) (rev : List RevRow) : List GRow :=
  dedupKeepLast GRow.aliasClean (sortByAlias (base ++ revProcess rev))

/-- Re-loading a written golden table (`load_golden_map` on the output of a
previous merge): a blank `BI Name` or `Standard_Name` cell is written as an
empty cell, read back as missing, and its row dropped by the loader's
`dropna`; `Alias_Clean` is recomputed from `BI Name` and duplicates keep the
last row. -/
def reloadGolden (t : List GRow) : List GRow :=
  dedupKeepLast GRow.aliasClean
    ((t.filter (fun r => !(r.biName = "") && !(r.standardName = ""))).map
      (fun r => { r with aliasClean := cleanName r.biName true }))

/-! ## Specification-side definitions and fixtures -/

/-- Written to the spec's words for comparison with `tokenLoopGo`: the
person-mode token loop with no duplicate collapsing at all ("never for
person names"). -/
def tokenLoopNoCollapse : List (List Char) → List (List Char) →
    List (List Char)
  | [], out => out
  | [t], out =>
    if t.isEmpty || t ∈ degreeTokens.map String.toList then out
    else out ++ [tokenMapApply t]
  | t :: r :: rest, out =>
    if t.isEmpty || t ∈ degreeTokens.map String.toList then
      tokenLoopNoCollapse (r :: rest) out
    else if (t = [ 'a', 'l'] || t = [ 'e', 'l']) && !r.isEmpty then
      tokenLoopNoCollapse rest (out ++ [[ 'e', 'l'] ++ r])
    else tokenLoopNoCollapse (r :: rest) (out ++ [tokenMapApply t])

/-- A representative set of person-name inputs for the normalization
idempotence property. -/
def testedPersonNames : List String :=
  ["Dr. Mohammed Ali", "muhamad hassan", "Abd El Rahman Saad", "YOUSSEF ali",
   "Prof. Ahmad Khalid MD", "Ali Hassan", "mr. tariq-  al saleh",
   "Dr Ahmed Mohamed"]

/-- A one-row golden table (`Alias_Clean` computed as the loader does). -/
def oneRowGolden : List GRow :=
  [GRow.mk "Ali Hassan" "Ali Hassan" "" (cleanName "Ali Hassan" true)]

/-- The three standard names of the clustering counterexample: the first and
second form an unsure-range pair, the first and third an auto-merge pair. -/
def mergeCexNames : List String := ["Ma Ab Ha", "Ma Xy Qr Ha", "Ma Ab De Ha"]

/-- A file system with a discovered golden reference whose columns cannot be
resolved. -/
def badColumnsFs : FileSys := fun p =>
  if p = "reference/golden_doctors.xlsx" then .file ["foo", "bar"] []
  else .absent

/-- A file system with no golden reference anywhere. -/
def emptyFs : FileSys := fun _ => .absent

/-- A file system whose discovered golden reference cannot be read. -/
def unreadableFs : FileSys := fun p =>
  if p = "reference/golden_doctors.xlsx" then .unreadable else .absent

/-- A golden row whose fuzzy score against `"ab"` is zero. -/
def zeroScoreRow : GRow := GRow.mk "Xy" "Xy Std" "" "Xy"

/-- A golden row whose fuzzy score against `"ab"` is exactly `1/2`. -/
def halfScoreRow : GRow := GRow.mk "ac" "Ac Std" "" "zz"

/-- Concrete base table and reviewed rows for the learning round-trip. The
base row `learnBaseAli` and the processed reviewed row `learnRevAli` share
the `Alias_Clean` key `"Ali Hassan"`. -/
def learnBaseAli : GRow :=
  GRow.mk "Ali Hassan" "Ali Hassan" "" (cleanName "Ali Hassan" true)

def learnBaseOmar : GRow :=
  GRow.mk "Dr Omar Saad" "Omar Saad" "" (cleanName "Dr Omar Saad" true)

def learnBase : List GRow := [learnBaseAli, learnBaseOmar]

def learnRev : List RevRow :=
  [RevRow.mk (some "Ali  Hassan") (some "Ali H Reviewed") (some "Surgery"),
   RevRow.mk (some "Dr Tarek Aly") (some "Tarek Ali") none,
   RevRow.mk none (some "Dropped Row") none]

/-- The processed reviewed rows of `learnRev`, as single rows. -/
def learnRevAli : GRow :=
  GRow.mk "Ali  Hassan" "Ali H Reviewed" "Surgery" (cleanName "Ali  Hassan" true)

def learnRevTarek : GRow :=
  GRow.mk "Dr Tarek Aly" "Tarek Ali" "" (cleanName "Dr Tarek Aly" true)

/-- A key-sorted permutation of `learnBase ++ revProcess learnRev` that an
unstable sort may produce: in the tied key class `"Ali Hassan"` the reviewed
row comes first, so `keep="last"` retains the base row. -/
def learnSortCex : List GRow :=
  [learnRevAli, learnBaseAli, learnBaseOmar, learnRevTarek]

/-! ## Bounds on the similarity model -/

theorem lcs_nil_left (b : List Char) : lcs [] b = 0 := rfl

theorem lcs_nil_right (a : List Char) : lcs a [] = 0 := by
  cases a <;> rfl

theorem lcs_cons_cons (x y : Char) (xs ys : List Char) :
    lcs (x :: xs) (y :: ys) =
      if x = y then lcs xs ys + 1
      else max (lcs xs (y :: ys)) (lcs (x :: xs) ys) := rfl

theorem lcs_le_left : ∀ a b : List Char, lcs a b ≤ a.length := by
  intro a
  induction a with
  | nil => intro b; simp [lcs_nil_left]
  | cons x xs ih =>
    intro b
    induction b with
    | nil => simp [lcs_nil_right]
    | cons y ys ihb =>
      rw [lcs_cons_cons]
      simp only [List.length_cons]
      by_cases h : x = y
      · simp only [h, if_pos rfl]
        exact Nat.succ_le_succ (ih ys)
      · simp only [if_neg h]
        have h1 := ih (y :: ys)
        have h2 := ihb
        simp only [List.length_cons] at h2
        omega

theorem lcs_le_right : ∀ a b : List Char, lcs a b ≤ b.length := by
  intro a
  induction a with
  | nil => intro b; simp [lcs_nil_left]
  | cons x xs ih =>
    intro b
    induction b with
    | nil => simp [lcs_nil_right]
    | cons y ys ihb =>
      rw [lcs_cons_cons]
      simp only [List.length_cons]
      by_cases h : x = y
      · simp only [h, if_pos rfl]
        exact Nat.succ_le_succ (ih ys)
      · simp only [if_neg h]
        have h1 := ih (y :: ys)
        have h2 := ihb
        simp only [List.length_cons] at h1
        omega

theorem mkRat_nonneg_of_nonneg (n : Int) (d : Nat) (h : 0 ≤ n) :
    0 ≤ mkRat n d := by
  rw [Rat.mkRat_eq_div]
  apply div_nonneg
  · exact_mod_cast h
  · positivity

theorem fuzzRatioQ_nonneg (a b : List Char) : 0 ≤ fuzzRatioQ a b := by
  unfold fuzzRatioQ
  split
  · norm_num
  · exact mkRat_nonneg_of_nonneg _ _ (by positivity)

theorem fuzzRatioQ_le_100 (a b : List Char) : fuzzRatioQ a b ≤ 100 := by
  unfold fuzzRatioQ
  split
  · norm_num
  · rename_i h
    rw [Rat.mkRat_eq_div]
    have hpos : (0:ℚ) < ((a.length + b.length : Nat) : ℚ) := by
      have : 0 < a.length + b.length := Nat.pos_of_ne_zero h
      exact_mod_cast this
    rw [div_le_iff₀ hpos]
    have h1 : lcs a b ≤ a.length := lcs_le_left a b
    have h2 : lcs a b ≤ b.length := lcs_le_right a b
    have hcast : (((200 * lcs a b : Nat) : Int) : ℚ) =
        200 * ((lcs a b : Nat) : ℚ) := by push_cast; ring
    rw [hcast]
    have hsum : ((a.length + b.length : Nat) : ℚ) =
        ((a.length : Nat) : ℚ) + ((b.length : Nat) : ℚ) := by push_cast; ring
    rw [hsum]
    have h1q : ((lcs a b : Nat) : ℚ) ≤ ((a.length : Nat) : ℚ) := by
      exact_mod_cast h1
    have h2q : ((lcs a b : Nat) : ℚ) ≤ ((b.length : Nat) : ℚ) := by
      exact_mod_cast h2
    nlinarith

theorem div100_eq (q : ℚ) : div100 q = q / 100 := by
  unfold div100
  rw [Rat.mkRat_eq_div]
  push_cast
  rw [div_mul_eq_div_div]
  congr 1
  exact_mod_cast Rat.num_div_den q

theorem simPairQ_nonneg (a b : String) : 0 ≤ simPairQ a b := by
  unfold simPairQ
  rw [div100_eq]
  have := fuzzRatioQ_nonneg (lowerStr a.toList) (lowerStr b.toList)
  positivity

theorem simPairQ_le_one (a b : String) : simPairQ a b ≤ 1 := by
  unfold simPairQ
  rw [div100_eq]
  have := fuzzRatioQ_le_100 (lowerStr a.toList) (lowerStr b.toList)
  linarith

theorem rowScore_nonneg (ex : String) (r : GRow) : 0 ≤ rowScore ex r :=
  le_max_of_le_left (simPairQ_nonneg ex r.biName)

theorem rowScore_le_one (ex : String) (r : GRow) : rowScore ex r ≤ 1 :=
  max_le (simPairQ_le_one ex r.biName) (simPairQ_le_one ex r.aliasClean)

/-! ## Lemmas on the fuzzy scan of the matcher -/

theorem fuzzyScan_unchanged (ex : String) (th : ℚ) :
    ∀ (rows : List GRow) (bm : Option String) (bs : ℚ),
    (∀ r ∈ rows, rowScore ex r < th ∨ rowScore ex r ≤ bs) →
    fuzzyScan ex th rows (bm, bs) = (bm, bs) := by
  intro rows
  induction rows with
  | nil => intro bm bs _; rfl
  | cons r rs ih =>
    intro bm bs h
    have hr := h r (by simp)
    simp only [fuzzyScan]
    rw [if_neg]
    · exact ih bm bs (fun r2 hr2 => h r2 (by simp [hr2]))
    · rintro ⟨h1, h2⟩
      rcases hr with h3 | h3 <;> linarith

theorem fuzzyScan_hits (ex : String) (th : ℚ) :
    ∀ (pre : List GRow) (r0 : GRow) (post : List GRow) (bm : Option String)
      (bs : ℚ),
    (∀ r ∈ pre, rowScore ex r < rowScore ex r0) →
    (∀ r ∈ post, rowScore ex r ≤ rowScore ex r0) →
    th ≤ rowScore ex r0 → bs < rowScore ex r0 →
    fuzzyScan ex th (pre ++ r0 :: post) (bm, bs) =
      (some r0.biName, rowScore ex r0) := by
  intro pre
  induction pre with
  | nil =>
    intro r0 post bm bs _ hpost hth hbs
    simp only [List.nil_append, fuzzyScan]
    rw [if_pos ⟨hbs, hth⟩]
    exact fuzzyScan_unchanged ex th post _ _ (fun r hr => Or.inr (hpost r hr))
  | cons p ps ih =>
    intro r0 post bm bs hpre hpost hth hbs
    have hp : rowScore ex p < rowScore ex r0 := hpre p (by simp)
    simp only [List.cons_append, fuzzyScan]
    by_cases hacc : bs < rowScore ex p ∧ th ≤ rowScore ex p
    · rw [if_pos hacc]
      exact ih r0 post _ _ (fun r hr => hpre r (by simp [hr])) hpost hth hp
    · rw [if_neg hacc]
      exact ih r0 post bm bs (fun r hr => hpre r (by simp [hr])) hpost hth hbs

theorem fuzzyScan_some_bounds (ex : String) (th : ℚ) :
    ∀ (rows : List GRow) (bm : Option String) (bs : ℚ),
    (∀ m sc, (bm, bs) = (some m, sc) → th ≤ sc ∧ sc ≤ 1) →
    ∀ m sc, fuzzyScan ex th rows (bm, bs) = (some m, sc) → th ≤ sc ∧ sc ≤ 1 := by
  intro rows
  induction rows with
  | nil => intro bm bs h m sc he; exact h m sc he
  | cons r rs ih =>
    intro bm bs h m sc
    simp only [fuzzyScan]
    by_cases hacc : bs < rowScore ex r ∧ th ≤ rowScore ex r
    · rw [if_pos hacc]
      refine ih _ _ (fun m2 sc2 he2 => ?_) m sc
      cases he2
      exact ⟨hacc.2, rowScore_le_one ex r⟩
    · rw [if_neg hacc]
      exact ih bm bs h m sc

/-- C10: `find_best_match_in_golden` returns `(None, 0.0)` on an empty
extracted name or an empty golden table, and any non-null match carries a
score that is exactly 1 or lies in `[threshold, 1]`. -/
theorem c10_matcher_guards (adv : Bool) (ex : String) (g : List GRow)
    (th : ℚ) :
    ((ex = "" ∨ g = []) → findBestMatchInGolden adv ex g th = (none, 0)) ∧
    (∀ m sc, findBestMatchInGolden adv ex g th = (some m, sc) →
      sc = 1 ∨ (th ≤ sc ∧ sc ≤ 1)) := by
  constructor
  · intro h
    unfold findBestMatchInGolden
    rw [if_pos h]
  · intro m sc h
    unfold findBestMatchInGolden at h
    by_cases h0 : ex = "" ∨ g = []
    · rw [if_pos h0] at h
      simp at h
    · rw [if_neg h0] at h
      by_cases h1 : ex ∈ g.map GRow.biName
      · rw [if_pos h1] at h
        cases h
        exact Or.inl rfl
      · rw [if_neg h1] at h
        cases hf : g.find? (fun r => r.aliasClean = cleanName ex true) with
        | some r =>
          rw [hf] at h
          cases h
          exact Or.inl rfl
        | none =>
          rw [hf] at h
          by_cases ha : adv
          · simp only [ha, if_true] at h
            exact Or.inr
              (fuzzyScan_some_bounds ex th g none 0
                (by intro m2 sc2 he; simp at he) m sc h)
          · simp only [ha, if_false] at h
            simp at h

/-- C10 witness: the guards at concrete inputs — an empty query yields
`(none, 0)`, and a concrete accepted fuzzy match scores `1/2` within
`[threshold, 1]`. -/
theorem c10_witness :
    findBestMatchInGolden true "" [] 0 = (none, 0) ∧
    (mkRat 1 2 = 1 ∨ (mkRat 1 2 ≤ mkRat 1 2 ∧ mkRat 1 2 ≤ 1)) :=
  ⟨(c10_matcher_guards true "" [] 0).1 (Or.inl rfl),
   (c10_matcher_guards true "ab" [halfScoreRow] (mkRat 1 2)).2 "ac" (mkRat 1 2)
     (by decide)⟩

/-! ## C6: matcher attempt order and threshold boundary -/

/-- C6 counterexample: at `threshold = 0` the single golden row scores
exactly the threshold (score 0), so by the claim it should be accepted and
returned; the code rejects it (`max_score > best_score` fails against the
initial best of 0) and returns no match. -/
theorem c6_counterexample :
    rowScore "ab" zeroScoreRow = 0 ∧
    (0 : ℚ) ≤ rowScore "ab" zeroScoreRow ∧
    findBestMatchInGolden true "ab" [zeroScoreRow] 0 = (none, 0) ∧
    findBestMatchInGolden true "ab" [zeroScoreRow] 0 ≠ (some "Xy", 0) := by
  decide

/-- C6 amended: the attempts run in the claimed fixed order with first
success winning and scores 1.0 for the two exact stages; the fuzzy stage
returns the first-encountered row attaining the maximal score provided that
score meets the threshold inclusively AND is strictly positive — a row
scoring exactly a threshold of zero is still rejected; no qualifying row or
unavailable fuzzy matching yields no match. -/
theorem c6_amended (adv : Bool) (ex : String) (g : List GRow) (th : ℚ) :
    (ex ≠ "" → ex ∈ g.map GRow.biName →
      findBestMatchInGolden adv ex g th = (some ex, 1)) ∧
    (∀ row, ex ≠ "" → ex ∉ g.map GRow.biName →
      g.find? (fun r => r.aliasClean = cleanName ex true) = some row →
      findBestMatchInGolden adv ex g th = (some row.biName, 1)) ∧
    (ex ≠ "" → ex ∉ g.map GRow.biName →
      g.find? (fun r => r.aliasClean = cleanName ex true) = none →
      findBestMatchInGolden false ex g th = (none, 0)) ∧
    (∀ pre r0 post, g = pre ++ r0 :: post → ex ≠ "" →
      ex ∉ g.map GRow.biName →
      g.find? (fun r => r.aliasClean = cleanName ex true) = none →
      (∀ r ∈ pre, rowScore ex r < rowScore ex r0) →
      (∀ r ∈ post, rowScore ex r ≤ rowScore ex r0) →
      th ≤ rowScore ex r0 → 0 < rowScore ex r0 →
      findBestMatchInGolden true ex g th = (some r0.biName, rowScore ex r0)) ∧
    ((∀ r ∈ g, rowScore ex r < th ∨ rowScore ex r ≤ 0) →
      ex ≠ "" → ex ∉ g.map GRow.biName →
      g.find? (fun r => r.aliasClean = cleanName ex true) = none →
      findBestMatchInGolden true ex g th = (none, 0)) := by
  refine ⟨?_, ?_, ?_, ?_, ?_⟩
  · intro hex hmem
    have hg : g ≠ [] := by
      intro h
      rw [h] at hmem
      simp at hmem
    unfold findBestMatchInGolden
    rw [if_neg (by tauto), if_pos hmem]
  · intro row hex hmem hfind
    have hrow := List.mem_of_find?_eq_some hfind
    have hg : g ≠ [] := by
      intro h
      rw [h] at hrow
      simp at hrow
    unfold findBestMatchInGolden
    rw [if_neg (by tauto), if_neg hmem, hfind]
  · intro hex hmem hfind
    by_cases hg : g = []
    · unfold findBestMatchInGolden
      rw [if_pos (Or.inr hg)]
    · unfold findBestMatchInGolden
      rw [if_neg (by tauto), if_neg hmem, hfind]
      simp
  · intro pre r0 post hg hex hmem hfind hpre hpost hth hpos
    have hg2 : g ≠ [] := by
      rw [hg]
      simp
    unfold findBestMatchInGolden
    rw [if_neg (by tauto), if_neg hmem, hfind]
    simp only [if_true]
    rw [hg]
    exact fuzzyScan_hits ex th pre r0 post none 0 hpre hpost hth hpos
  · intro hall hex hmem hfind
    by_cases hg : g = []
    · unfold findBestMatchInGolden
      rw [if_pos (Or.inr hg)]
    · unfold findBestMatchInGolden
      rw [if_neg (by tauto), if_neg hmem, hfind]
      simp only [if_true]
      exact fuzzyScan_unchanged ex th g none 0
        (fun r hr => (hall r hr).imp id id)

/-- C6 witness: all five stages of the amended matcher contract at concrete
inputs — raw-equality match, clean-key match, fuzzy unavailable, an accepted
fuzzy match at its exact score, and rejection when every row is below the
threshold. -/
theorem c6_witness :
    findBestMatchInGolden true "Ali Hassan" oneRowGolden goldenMatchThreshold
      = (some "Ali Hassan", 1) ∧
    findBestMatchInGolden true "ali  hassan" oneRowGolden goldenMatchThreshold
      = (some "Ali Hassan", 1) ∧
    findBestMatchInGolden false "ab" [zeroScoreRow] (mkRat 1 2) = (none, 0) ∧
    findBestMatchInGolden true "ab" [halfScoreRow] (mkRat 1 2)
      = (some "ac", rowScore "ab" halfScoreRow) ∧
    findBestMatchInGolden true "ab" [zeroScoreRow] (mkRat 1 2) = (none, 0) :=
  ⟨(c6_amended true "Ali Hassan" oneRowGolden goldenMatchThreshold).1
      (by decide) (by decide),
   (c6_amended true "ali  hassan" oneRowGolden goldenMatchThreshold).2.1
      (GRow.mk "Ali Hassan" "Ali Hassan" "" (cleanName "Ali Hassan" true))
      (by decide) (by decide) (by decide),
   (c6_amended false "ab" [zeroScoreRow] (mkRat 1 2)).2.2.1
      (by decide) (by decide) (by decide),
   (c6_amended true "ab" [halfScoreRow] (mkRat 1 2)).2.2.2.1
      [] halfScoreRow [] rfl (by decide) (by decide) (by decide)
      (by simp) (by simp) (by decide) (by decide),
   (c6_amended true "ab" [zeroScoreRow] (mkRat 1 2)).2.2.2.2
      (by decide) (by decide) (by decide) (by decide)⟩

/-! ## C5: specialty normalization fallback -/

theorem specFuzzyFold_some_mem (base : String) :
    ∀ (l : List (String × String)) (st : Option String × ℚ),
    (∀ c, st.1 = some c → c ∈ specialtyCanonical.map Prod.fst) →
    (∀ p ∈ l, p.1 ∈ specialtyCanonical.map Prod.fst) →
    ∀ c, (l.foldl (specFuzzyStep base) st).1 = some c →
      c ∈ specialtyCanonical.map Prod.fst := by
  intro l
  induction l with
  | nil => intro st hst _ c hc; exact hst c hc
  | cons p ps ih =>
    intro st hst hl c
    simp only [List.foldl_cons]
    refine ih _ (fun c2 hc2 => ?_) (fun q hq => hl q (by simp [hq])) c
    unfold specFuzzyStep at hc2
    by_cases hlt : st.2 < partialRatioQ base.toList p.2.toList
    · rw [if_pos hlt] at hc2
      simp at hc2
      rw [← hc2]
      exact hl p (by simp)
    · rw [if_neg hlt] at hc2
      exact hst c2 hc2

theorem specialtyFuzzyBest_some_mem (base : String) (c : String) (s : ℚ)
    (h : specialtyFuzzyBest base = (some c, s)) :
    c ∈ specialtyCanonical.map Prod.fst := by
  unfold specialtyFuzzyBest at h
  refine specFuzzyFold_some_mem base _ (none, 0) (by simp) ?_ c (by rw [h])
  intro p hp
  rcases List.mem_flatMap.mp hp with ⟨q, hq, hpq⟩
  rcases List.mem_map.mp hpq with ⟨k, _, hk⟩
  rw [← hk]
  exact List.mem_map.mpr ⟨q, hq, rfl⟩

theorem specialtyCanonical_title_ne_unknown :
    ∀ c ∈ specialtyCanonical.map Prod.fst,
      String.mk (pyTitle c.toList) ≠ "Unknown" := by decide

theorem specFuzzyFold_lt (base : String) (bound : ℚ) :
    ∀ (l : List (String × String)) (st : Option String × ℚ),
    st.2 < bound →
    (∀ p ∈ l, partialRatioQ base.toList p.2.toList < bound) →
    (l.foldl (specFuzzyStep base) st).2 < bound := by
  intro l
  induction l with
  | nil => intro st hst _; exact hst
  | cons p ps ih =>
    intro st hst hl
    simp only [List.foldl_cons]
    refine ih _ ?_ (fun q hq => hl q (by simp [hq]))
    unfold specFuzzyStep
    by_cases hlt : st.2 < partialRatioQ base.toList p.2.toList
    · rw [if_pos hlt]
      exact hl p (by simp)
    · rw [if_neg hlt]
      exact hst

/-- If every canonical key scores below `bound`, so does the best fuzzy
score. -/
theorem specialtyFuzzyBest_lt (base : String) (bound : ℚ) (h0 : 0 < bound)
    (h : ∀ p ∈ specialtyCanonical, ∀ k ∈ p.1 :: p.2,
      partialRatioQ base.toList k.toList < bound) :
    (specialtyFuzzyBest base).2 < bound := by
  unfold specialtyFuzzyBest
  refine specFuzzyFold_lt base bound _ (none, 0) h0 ?_
  intro p hp
  rcases List.mem_flatMap.mp hp with ⟨q, hq, hpq⟩
  rcases List.mem_map.mp hpq with ⟨k, hk, hkp⟩
  rw [← hkp]
  exact h q hq k hk

/-- C5 counterexample: the non-empty input `"dept"` (a specialty stop-word)
cleans to the empty string and `normalize_specialty` returns `"Unknown"`,
refuting "returns Unknown only when the input is empty (or NaN)". -/
theorem c5_counterexample :
    normalizeSpecialty true "dept" = "Unknown" ∧ "dept" ≠ "" := by decide

/-- Forward characterization of `normalize_specialty`: the result is
`"Unknown"` (empty cleaned text), the title of a canonical specialty, or the
title of the cleaned text. -/
theorem normalizeSpecialty_result (adv : Bool) (v : String) :
    cleanSpecialtyText v = "" ∨
    (∃ c, c ∈ specialtyCanonical.map Prod.fst ∧
      normalizeSpecialty adv v = String.mk (pyTitle c.toList)) ∨
    normalizeSpecialty adv v =
      String.mk (pyTitle (cleanSpecialtyText v).toList) := by
  by_cases hb : cleanSpecialtyText v = ""
  · exact Or.inl hb
  · right
    cases h1 : specialtyCanonical.find?
        (fun p => cleanSpecialtyText v = p.1 ||
          cleanSpecialtyText v ∈ p.2) with
    | some p =>
      left
      refine ⟨p.1,
        List.mem_map.mpr ⟨p, List.mem_of_find?_eq_some h1, rfl⟩, ?_⟩
      unfold normalizeSpecialty
      rw [if_neg hb, h1]
    | none =>
      cases h2 : specialtyCanonical.find?
          (fun p => (p.1 :: p.2).any
            (fun k => searchPhrase k (cleanSpecialtyText v))) with
      | some p =>
        left
        refine ⟨p.1,
          List.mem_map.mpr ⟨p, List.mem_of_find?_eq_some h2, rfl⟩, ?_⟩
        unfold normalizeSpecialty
        rw [if_neg hb, h1, h2]
      | none =>
        by_cases ha : adv
        · cases h3 : specialtyFuzzyBest (cleanSpecialtyText v) with
          | mk b s =>
            cases b with
            | some best =>
              by_cases h88 : (88 : ℚ) ≤ s
              · left
                refine ⟨best,
                  specialtyFuzzyBest_some_mem _ best s h3, ?_⟩
                unfold normalizeSpecialty
                rw [if_neg hb, h1, h2, if_pos ha, h3]
                exact if_pos h88
              · right
                unfold normalizeSpecialty
                rw [if_neg hb, h1, h2, if_pos ha, h3]
                exact if_neg h88
            | none =>
              right
              unfold normalizeSpecialty
              rw [if_neg hb, h1, h2, if_pos ha, h3]
        · right
          unfold normalizeSpecialty
          rw [if_neg hb, h1, h2, if_neg ha]

/-- C5 amended: `normalize_specialty` returns `"Unknown"` only when the
cleaned text is empty (the input was empty, NaN, or consisted solely of
punctuation and stop-words) or when the title-cased cleaned text is itself
literally `"Unknown"`; a non-empty cleaned input matching no canonical
specialty exactly, by synonym, by substring, or by fuzzy match at the 88
floor returns the title-cased cleaned text. -/
theorem c5_amended (adv : Bool) (v : String) :
    (normalizeSpecialty adv v = "Unknown" →
      cleanSpecialtyText v = "" ∨
        String.mk (pyTitle (cleanSpecialtyText v).toList) = "Unknown") ∧
    (cleanSpecialtyText v ≠ "" →
      specialtyCanonical.find?
        (fun p => cleanSpecialtyText v = p.1 ||
          cleanSpecialtyText v ∈ p.2) = none →
      specialtyCanonical.find?
        (fun p => (p.1 :: p.2).any
          (fun k => searchPhrase k (cleanSpecialtyText v))) = none →
      (∀ p ∈ specialtyCanonical, ∀ k ∈ p.1 :: p.2,
        partialRatioQ (cleanSpecialtyText v).toList k.toList < 88) →
      normalizeSpecialty adv v =
        String.mk (pyTitle (cleanSpecialtyText v).toList)) := by
  constructor
  · intro hu
    rcases normalizeSpecialty_result adv v with h | ⟨c, hc, he⟩ | he
    · exact Or.inl h
    · rw [he] at hu
      exact absurd hu (specialtyCanonical_title_ne_unknown c hc)
    · rw [he] at hu
      exact Or.inr hu
  · intro hb h1 h2 hpt
    have h3 := specialtyFuzzyBest_lt (cleanSpecialtyText v) 88
      (by norm_num) hpt
    unfold normalizeSpecialty
    rw [if_neg hb, h1, h2]
    by_cases ha : adv
    · rw [if_pos ha]
      cases h4 : specialtyFuzzyBest (cleanSpecialtyText v) with
      | mk b s =>
        cases b with
        | some best =>
          rw [h4] at h3
          exact if_neg (not_le.mpr h3)
        | none => rfl
    · rw [if_neg ha]

/-- C5 witness: the amended contract at concrete inputs — `"of"` (all
stop-words) cleans to empty and yields `"Unknown"`, while the unmatched
non-empty `"zq"` falls through every stage to its title-cased cleaned
text `"Zq"`. -/
theorem c5_witness :
    (cleanSpecialtyText "of" = "" ∨
      String.mk (pyTitle (cleanSpecialtyText "of").toList) = "Unknown") ∧
    normalizeSpecialty true "zq" =
      String.mk (pyTitle (cleanSpecialtyText "zq").toList) :=
  ⟨(c5_amended true "of").1 (by decide),
   (c5_amended true "zq").2 (by decide) (by decide) (by decide)
     (by decide)⟩

/-! ## C7: duplicate-token collapsing -/

theorem tokenMapPairs_values_ne_nil : ∀ p ∈ tokenMapPairs, p.2.toList ≠ [] := by
  decide

theorem tokenMapApply_ne_nil (t : List Char) (ht : t ≠ []) :
    tokenMapApply t ≠ [] := by
  unfold tokenMapApply
  cases hf : tokenMapPairs.find? (fun p => p.1.toList = t) with
  | some p => exact tokenMapPairs_values_ne_nil p (List.mem_of_find?_eq_some hf)
  | none => exact ht

theorem tokenStep_facility_invariant (t : List Char)
    (out : List (List Char)) (ht : t ≠ [])
    (hlen : (tokenMapApply t).length ≠ 1)
    (hout : ∀ w ∈ out, 1 < w.length)
    (hchain : List.Chain' (fun a b => a ≠ b) out) :
    (∀ w ∈ tokenStep false t out, 1 < w.length) ∧
    List.Chain' (fun a b => a ≠ b) (tokenStep false t out) := by
  unfold tokenStep
  have ht2 : 1 < (tokenMapApply t).length := by
    have h0 : tokenMapApply t ≠ [] := tokenMapApply_ne_nil t ht
    have : (tokenMapApply t).length ≠ 0 := by
      intro h
      exact h0 (List.eq_nil_of_length_eq_zero h)
    omega
  by_cases hguard : (!false && !out.isEmpty &&
      decide (out.getLast? = some (tokenMapApply t))) = true
  · rw [if_pos hguard]
    exact ⟨hout, hchain⟩
  · rw [if_neg hguard]
    constructor
    · intro w hw
      rcases List.mem_append.mp hw with hw | hw
      · exact hout w hw
      · simp at hw
        rw [hw]
        exact ht2
    · rw [List.chain'_append]
      refine ⟨hchain, List.chain'_singleton _, ?_⟩
      intro x hx y hy hxy
      rw [Option.mem_def] at hx
      have hy2 : y = tokenMapApply t := by
        have := hy
        simp at this
        exact this.symm
      have hne : out ≠ [] := by
        intro h
        rw [h] at hx
        simp at hx
      apply hguard
      simp only [Bool.not_false, Bool.true_and, Bool.and_eq_true,
        decide_eq_true_eq]
      constructor
      · cases out with
        | nil => exact absurd rfl hne
        | cons a l => rfl
      · rw [hx]
        exact congrArg some (hxy.trans hy2)

/-- The facility-mode loop invariant: with no `al`/`el` article tokens and no
tokens mapping to single characters, the accumulated output keeps all tokens
longer than one character and free of adjacent duplicates. -/
theorem tokenLoop_facility_invariant :
    ∀ (n : Nat) (toks out : List (List Char)), toks.length ≤ n →
    (∀ t ∈ toks, t ≠ [ 'a', 'l'] ∧ t ≠ [ 'e', 'l']) →
    (∀ t ∈ toks, t ≠ [] → (tokenMapApply t).length ≠ 1) →
    (∀ w ∈ out, 1 < w.length) →
    List.Chain' (fun a b => a ≠ b) out →
    (∀ w ∈ tokenLoopGo false toks out, 1 < w.length) ∧
    List.Chain' (fun a b => a ≠ b) (tokenLoopGo false toks out) := by
  intro n
  induction n with
  | zero =>
    intro toks out hlen _ _ hout hchain
    have : toks = [] := List.eq_nil_of_length_eq_zero (Nat.le_zero.mp hlen)
    rw [this]
    exact ⟨hout, hchain⟩
  | succ n ih =>
    intro toks out hlen h1 h2 hout hchain
    match toks with
    | [] => exact ⟨hout, hchain⟩
    | [t] =>
      unfold tokenLoopGo
      by_cases hskip : (t.isEmpty || decide
          (t ∈ degreeTokens.map String.toList)) = true
      · rw [if_pos hskip]
        exact ⟨hout, hchain⟩
      · rw [if_neg hskip]
        have ht : t ≠ [] := by
          intro h
          rw [h] at hskip
          simp [List.isEmpty] at hskip
        exact tokenStep_facility_invariant t out ht
          (h2 t (by simp) ht) hout hchain
    | t :: r :: rest =>
      have hlen2 : (r :: rest).length ≤ n := by
        simp only [List.length_cons] at hlen ⊢
        omega
      unfold tokenLoopGo
      by_cases hskip : (t.isEmpty || decide
          (t ∈ degreeTokens.map String.toList)) = true
      · rw [if_pos hskip]
        exact ih (r :: rest) out hlen2
          (fun x hx => h1 x (by simp [hx]))
          (fun x hx => h2 x (by simp [hx])) hout hchain
      · rw [if_neg hskip]
        have ht : t ≠ [] := by
          intro h
          rw [h] at hskip
          simp [List.isEmpty] at hskip
        have hart : ((t = [ 'a', 'l'] || t = [ 'e', 'l']) && !r.isEmpty)
            = false := by
          have := h1 t (by simp)
          simp [this.1, this.2]
        rw [hart]
        simp only [Bool.false_eq_true, if_false]
        have hstep := tokenStep_facility_invariant t out ht
          (h2 t (by simp) ht) hout hchain
        exact ih (r :: rest) (tokenStep false t out) hlen2
          (fun x hx => h1 x (by simp [hx]))
          (fun x hx => h2 x (by simp [hx])) hstep.1 hstep.2

/-- Person mode never consults the deduplication guard: the loop equals the
spec-side no-collapse loop. -/
theorem tokenLoop_person_eq :
    ∀ (n : Nat) (toks out : List (List Char)), toks.length ≤ n →
    tokenLoopGo true toks out = tokenLoopNoCollapse toks out := by
  intro n
  induction n with
  | zero =>
    intro toks out hlen
    have : toks = [] := List.eq_nil_of_length_eq_zero (Nat.le_zero.mp hlen)
    rw [this]
    rfl
  | succ n ih =>
    intro toks out hlen
    match toks with
    | [] => rfl
    | [t] => rfl
    | t :: r :: rest =>
      have hlen2 : (r :: rest).length ≤ n := by
        simp only [List.length_cons] at hlen ⊢
        omega
      have hlen3 : rest.length ≤ n := by
        simp only [List.length_cons] at hlen
        omega
      unfold tokenLoopGo tokenLoopNoCollapse
      by_cases hskip : (t.isEmpty || decide
          (t ∈ degreeTokens.map String.toList)) = true
      · rw [if_pos hskip, if_pos hskip]
        exact ih (r :: rest) out hlen2
      · rw [if_neg hskip, if_neg hskip]
        by_cases hart : ((t = [ 'a', 'l'] || t = [ 'e', 'l']) && !r.isEmpty)
            = true
        · rw [if_pos hart, if_pos hart]
          exact ih rest _ hlen3
        · rw [if_neg hart, if_neg hart]
          exact ih (r :: rest) _ hlen2

/-- C7 counterexample: in facility mode the token `c` between two `ab`
tokens is dropped by the single-character filter after the loop, leaving the
adjacent duplicate pair `["ab", "ab"]` in the output of `normalize_tokens` —
the claimed absence of adjacent equal tokens fails. -/
theorem c7_counterexample :
    normalizeTokens "ab c ab" false = ["ab", "ab"] ∧
    ¬ List.Chain' (fun a b : String => a ≠ b)
      (normalizeTokens "ab c ab" false) := by
  have h : normalizeTokens "ab c ab" false = ["ab", "ab"] := by decide
  refine ⟨h, ?_⟩
  rw [h]
  intro hc
  rw [List.chain'_cons] at hc
  exact hc.1 rfl

/-- C7 amended: facility-mode deduplication is only applied at append time
against the previously appended token, so adjacent duplicates cannot appear
provided no `al`/`el` article merge fires and no single-character token is
filtered out afterwards; person mode never collapses duplicates (the loop
coincides with a collapse-free loop). -/
theorem c7_amended :
    (∀ toks : List (List Char),
      (∀ t ∈ toks, t ≠ [ 'a', 'l'] ∧ t ≠ [ 'e', 'l']) →
      (∀ t ∈ toks, t ≠ [] → (tokenMapApply t).length ≠ 1) →
      List.Chain' (fun a b => a ≠ b)
        ((tokenLoopGo false toks []).filter (fun w => 1 < w.length))) ∧
    (∀ toks out, tokenLoopGo true toks out = tokenLoopNoCollapse toks out) := by
  constructor
  · intro toks h1 h2
    have hinv := tokenLoop_facility_invariant toks.length toks [] le_rfl h1 h2
      (by simp) List.chain'_nil
    have hfilter : (tokenLoopGo false toks []).filter
        (fun w => 1 < w.length) = tokenLoopGo false toks [] :=
      List.filter_eq_self.mpr (fun w hw => by
        simp only [decide_eq_true_eq]
        exact hinv.1 w hw)
    rw [hfilter]
    exact hinv.2
  · intro toks out
    exact tokenLoop_person_eq toks.length toks out le_rfl

/-- C7 witness: the facility no-adjacent-duplicate conclusion on a concrete
article-free token list, and the person-mode loop preserving a duplicated
`ent` token exactly as the collapse-free loop does. -/
theorem c7_witness :
    List.Chain' (fun a b => a ≠ b)
      ((tokenLoopGo false [[ 'a', 'b'], [ 'a', 'b'], [ 'c', 'd']] []).filter
        (fun w => 1 < w.length)) ∧
    tokenLoopGo true [[ 'e', 'n', 't'], [ 'e', 'n', 't']] [] =
      tokenLoopNoCollapse [[ 'e', 'n', 't'], [ 'e', 'n', 't']] [] :=
  ⟨c7_amended.1 [[ 'a', 'b'], [ 'a', 'b'], [ 'c', 'd']]
      (by decide) (by decide),
   c7_amended.2 [[ 'e', 'n', 't'], [ 'e', 'n', 't']] []⟩

/-! ## C8: idempotence of normalization -/

/-- C8 counterexample: for `"abd x el"` the single-character token `x` is
filtered out, so the cleaned name `"Abd El"` brings `abd` and `el` together;
re-normalizing fires the `ABD_PAT` rewrite and yields `["abdel"]` instead of
the original `["abd", "el"]` — idempotence fails. -/
theorem c8_counterexample :
    normalizeTokens "abd x el" true = ["abd", "el"] ∧
    cleanName "abd x el" true = "Abd El" ∧
    normalizeTokens (cleanName "abd x el" true) true = ["abdel"] ∧
    normalizeTokens (cleanName "abd x el" true) true ≠
      normalizeTokens "abd x el" true := by decide

/-- C8 amended: normalization is idempotent on the tested person names (the
spec's own scope), but not for every string — cleaning can juxtapose `abd`
with `el`/`al` across a dropped single-character token, and the re-applied
phrase rewrites then change the tokens (counterexample `"abd x el"`). -/
theorem c8_amended :
    ∀ x ∈ testedPersonNames,
      normalizeTokens (cleanName x true) true = normalizeTokens x true := by
  decide

/-- C8 witness: the amended idempotence instantiated at a concrete tested
name. -/
theorem c8_witness :
    normalizeTokens (cleanName "Ali Hassan" true) true =
      normalizeTokens "Ali Hassan" true :=
  c8_amended "Ali Hassan" (by decide)

/-! ## C9: golden reference auto-discovery -/

/-- C9: with no explicit path the loader resolves, in order,
`reference/golden_doctors.xlsx`, `reference/golden_reference.xlsx`,
`golden_reference.xlsx`, `doctor_cleaner/golden_reference.xlsx` — first
existing file wins; when none exists `load_golden_map` returns the empty
table rather than an error; an explicit but missing path falls back to the
same auto-discovery. -/
theorem c9_resolution (fs : FileSys) :
    (resolveGoldenPath fs none =
      if fsExists fs "reference/golden_doctors.xlsx" then
        some "reference/golden_doctors.xlsx"
      else if fsExists fs "reference/golden_reference.xlsx" then
        some "reference/golden_reference.xlsx"
      else if fsExists fs "golden_reference.xlsx" then
        some "golden_reference.xlsx"
      else if fsExists fs "doctor_cleaner/golden_reference.xlsx" then
        some "doctor_cleaner/golden_reference.xlsx"
      else none) ∧
    ((∀ c ∈ goldenCandidates, ¬ fsExists fs c) →
      loadGoldenMap fs none = .ok []) ∧
    (∀ p, ¬ fsExists fs p →
      resolveGoldenPath fs (some p) = resolveGoldenPath fs none) := by
  refine ⟨?_, ?_, ?_⟩
  · show getBestGoldenReference fs = _
    unfold getBestGoldenReference goldenCandidates
    by_cases h1 : fsExists fs "reference/golden_doctors.xlsx" <;>
      by_cases h2 : fsExists fs "reference/golden_reference.xlsx" <;>
        by_cases h3 : fsExists fs "golden_reference.xlsx" <;>
          by_cases h4 : fsExists fs "doctor_cleaner/golden_reference.xlsx" <;>
            simp [List.find?, h1, h2, h3, h4]
  · intro h
    have hnone : getBestGoldenReference fs = none := by
      unfold getBestGoldenReference
      rw [List.find?_eq_none]
      intro c hc
      simp [h c hc]
    unfold loadGoldenMap resolveGoldenPath
    rw [hnone]
  · intro p hp
    show (if fsExists fs p then some p else getBestGoldenReference fs) =
      getBestGoldenReference fs
    rw [if_neg hp]

/-- C9 witness: with no file present anywhere the loader returns an empty
table, and a missing explicit path resolves exactly like auto-discovery. -/
theorem c9_witness :
    loadGoldenMap emptyFs none = .ok [] ∧
    resolveGoldenPath emptyFs (some "missing.xlsx") =
      resolveGoldenPath emptyFs none :=
  ⟨(c9_resolution emptyFs).2.1 (by decide),
   (c9_resolution emptyFs).2.2 "missing.xlsx" (by decide)⟩

/-! ## C2: golden reference loading failure modes -/

/-- C2 counterexample: an auto-discovered reference file whose columns
cannot be resolved makes `load_golden_map` raise a schema error (the
`ValueError` of the source), not degrade to an empty reference —
`process_file` calls it unguarded, so the run aborts. -/
theorem c2_counterexample :
    loadGoldenMap badColumnsFs none = .error .schemaFailure ∧
    loadGoldenMap badColumnsFs none ≠ .ok [] := by
  have h1 : loadGoldenMap badColumnsFs none = .error .schemaFailure := rfl
  refine ⟨h1, fun h => ?_⟩
  rw [h1] at h
  exact Except.noConfusion h

/-- C2 amended: only an absent reference degrades to an empty table; an
existing but unreadable reference propagates the read failure and a
discovered reference with unresolvable required columns raises a schema
failure, aborting the run in both cases. -/
theorem c2_amended (fs : FileSys) (headers : List String)
    (rows : List (List (Option String))) :
    ((∀ c ∈ goldenCandidates, fs c = .absent) →
      loadGoldenMap fs none = .ok []) ∧
    (fs "reference/golden_doctors.xlsx" = .file headers rows →
      lastColIdx ["bi name", "bi names"] (headers.map normalizeCol) = none →
      loadGoldenMap fs none = .error .schemaFailure) ∧
    (fs "reference/golden_doctors.xlsx" = .unreadable →
      loadGoldenMap fs none = .error .readFailure) := by
  refine ⟨?_, ?_, ?_⟩
  · intro h
    refine (c9_resolution fs).2.1 ?_
    intro c hc
    simp [fsExists, h c hc]
  · intro hfile hcols
    have hres : resolveGoldenPath fs none =
        some "reference/golden_doctors.xlsx" := by
      show getBestGoldenReference fs = _
      unfold getBestGoldenReference goldenCandidates
      simp [List.find?, fsExists, hfile]
    show loadGoldenMap fs none = _
    unfold loadGoldenMap
    rw [hres]
    show readGolden fs "reference/golden_doctors.xlsx" = _
    unfold readGolden
    rw [hfile]
    show parseGolden headers rows = _
    unfold parseGolden
    simp only [hcols]
  · intro hfile
    have hres : resolveGoldenPath fs none =
        some "reference/golden_doctors.xlsx" := by
      show getBestGoldenReference fs = _
      unfold getBestGoldenReference goldenCandidates
      simp [List.find?, fsExists, hfile]
    unfold loadGoldenMap
    rw [hres]
    show readGolden fs "reference/golden_doctors.xlsx" = _
    unfold readGolden
    rw [hfile]

/-- C2 witness: the three loading outcomes at concrete file systems —
absent everywhere gives the empty table, bad columns give the schema
failure, an unreadable file gives the read failure. -/
theorem c2_witness :
    loadGoldenMap emptyFs none = .ok [] ∧
    loadGoldenMap badColumnsFs none = .error .schemaFailure ∧
    loadGoldenMap unreadableFs none = .error .readFailure :=
  ⟨(c2_amended emptyFs [] []).1 (by decide),
   (c2_amended badColumnsFs ["foo", "bar"] []).2.1 (by decide) (by decide),
   (c2_amended unreadableFs [] []).2.2 (by decide)⟩

/-! ## C1: `Standard_Name` population in `process_file` -/

/-- C1 counterexample: the person record `"Dr."` (classified as a person,
extracting to the empty name) receives an empty `Standard_Name` under a
non-empty golden reference — the claimed fallback to the original `BI Name`
never happens because it is guarded by the extracted name being non-empty. -/
theorem c1_counterexample :
    oneRowGolden ≠ [] ∧
    isFacility "Dr." = false ∧
    extractPersonNameSmart "Dr." = "" ∧
    (processPersons true unsureThresholdDefault oneRowGolden ["Dr."]).map
      PersonRec.standardName = [""] := by decide

/-- C1 amended: with a non-empty golden reference, `Standard_Name` equals
the direct-map value on a raw `BI Name` hit, the matched golden row's
`Standard_Name` on a smart match, the extracted name when unmatched with a
non-empty extracted name, and the empty string when the extracted name is
empty (the `extracted or BI Name` fallback is unreachable, being guarded by
a non-empty extracted name). -/
theorem c1_amended (adv : Bool) (g : List GRow) (bi : String) :
    (∀ std, goldenDirectLookup g bi = some std →
      (matchPerson adv g bi).standardName = std) ∧
    (goldenDirectLookup g bi = none → extractPersonNameSmart bi = "" →
      (matchPerson adv g bi).standardName = "") ∧
    (∀ m sc, goldenDirectLookup g bi = none →
      extractPersonNameSmart bi ≠ "" →
      findBestMatchInGolden adv (extractPersonNameSmart bi) g
        goldenMatchThreshold = (some m, sc) →
      (matchPerson adv g bi).standardName =
        ((g.find? (fun r => r.biName = m)).map (·.standardName)).getD "") ∧
    (∀ sc, goldenDirectLookup g bi = none →
      extractPersonNameSmart bi ≠ "" →
      findBestMatchInGolden adv (extractPersonNameSmart bi) g
        goldenMatchThreshold = (none, sc) →
      (matchPerson adv g bi).standardName = extractPersonNameSmart bi) := by
  refine ⟨?_, ?_, ?_, ?_⟩
  · intro std hdir
    simp only [matchPerson, hdir]
  · intro hdir hex
    simp only [matchPerson, hdir]
    rw [if_pos hex]
  · intro m sc hdir hex hfind
    simp only [matchPerson, hdir]
    rw [if_neg hex, hfind]
  · intro sc hdir hex hfind
    simp only [matchPerson, hdir]
    rw [if_neg hex, hfind]

/-- C1 witness: the four `Standard_Name` outcomes at concrete inputs — a
direct map hit, an empty extracted name under a non-empty golden table, a
smart match through the clean key, and an unmatched non-empty extraction. -/
theorem c1_witness :
    (matchPerson true oneRowGolden "Ali Hassan").standardName =
      "Ali Hassan" ∧
    (matchPerson true oneRowGolden "Dr.").standardName = "" ∧
    (matchPerson true oneRowGolden "ali  hassan").standardName =
      ((oneRowGolden.find? (fun r => r.biName = "Ali Hassan")).map
        (·.standardName)).getD "" ∧
    (matchPerson true oneRowGolden "Zz Qq").standardName = "Zz Qq" :=
  ⟨(c1_amended true oneRowGolden "Ali Hassan").1 "Ali Hassan" (by decide),
   (c1_amended true oneRowGolden "Dr.").2.1 (by decide) (by decide),
   (c1_amended true oneRowGolden "ali  hassan").2.2.1 "Ali Hassan" 1
     (by decide) (by decide) (by decide),
   (c1_amended true oneRowGolden "Zz Qq").2.2.2 0
     (by decide) (by decide) (by decide)⟩

/-! ## C3: unsure pairs in `smart_merge_persons` -/

theorem mem_allPairs (n i j : Nat) :
    (i, j) ∈ allPairs n ↔ i < j ∧ j < n := by
  unfold allPairs
  simp only [List.mem_flatMap, List.mem_map, List.mem_filter,
    List.mem_range, decide_eq_true_eq]
  constructor
  · rintro ⟨a, ha, b, ⟨hb, hab⟩, heq⟩
    cases heq
    exact ⟨hab, hb⟩
  · rintro ⟨hij, hj⟩
    exact ⟨i, Nat.lt_trans hij hj, j, ⟨hj, hij⟩, rfl⟩

theorem foldl_pres {σ α : Type} (step : σ → α → σ) (P : σ → Prop)
    (hpres : ∀ st a, P st → P (step st a)) :
    ∀ (l : List α) (init : σ), P init → P (l.foldl step init) := by
  intro l
  induction l with
  | nil => intro init h; exact h
  | cons b bs ih =>
    intro init h
    exact ih (step init b) (hpres init b h)

theorem foldl_mem_add {σ α : Type} (step : σ → α → σ) (P : σ → Prop)
    (hpres : ∀ st a, P st → P (step st a)) (a : α)
    (hadd : ∀ st, P (step st a)) :
    ∀ (l : List α) (init : σ), a ∈ l → P (l.foldl step init) := by
  intro l
  induction l with
  | nil => intro init h; simp at h
  | cons b bs ih =>
    intro init h
    rcases List.mem_cons.mp h with h | h
    · rw [← h]
      exact foldl_pres step P hpres bs (step init a) (hadd init)
    · exact ih (step init b) h

theorem setAdd_mem_of_mem (u : List (String × String)) (p q : String × String)
    (h : q ∈ u) : q ∈ setAdd u p := by
  unfold setAdd
  split
  · exact h
  · exact List.mem_append.mpr (Or.inl h)

theorem setAdd_mem_self (u : List (String × String)) (p : String × String) :
    p ∈ setAdd u p := by
  unfold setAdd
  split
  · assumption
  · exact List.mem_append.mpr (Or.inr (by simp))

theorem mergePairStep_unsure_mono (recs : List MergeRec) (u : ℚ)
    (st : List (String × String) × List (String × String)) (ij : Nat × Nat)
    (x : String × String) (hx : x ∈ st.2) :
    x ∈ (mergePairStep recs u st ij).2 := by
  cases h1 : recs.get? ij.1 with
  | none =>
    simp only [mergePairStep, h1]
    exact hx
  | some ri =>
    cases h2 : recs.get? ij.2 with
    | none =>
      simp only [mergePairStep, h1, h2]
      exact hx
    | some rj =>
      simp only [mergePairStep, h1, h2]
      by_cases hb : ri.block = rj.block
      · rw [if_pos hb]
        by_cases hguard : ri.fam ≠ rj.fam ∨ ri.toks = [] ∨ rj.toks = []
        · rw [if_pos hguard]
          exact hx
        · rw [if_neg hguard]
          by_cases hmerge : autoMergeThreshold ≤
              div100 (tokenSetRatioQ (joinSpace ri.toks) (joinSpace rj.toks))
          · rw [if_pos hmerge]
            exact hx
          · rw [if_neg hmerge]
            by_cases hunsure : u ≤
                div100 (tokenSetRatioQ (joinSpace ri.toks)
                  (joinSpace rj.toks))
            · rw [if_pos hunsure]
              exact setAdd_mem_of_mem _ _ _ hx
            · rw [if_neg hunsure]
              exact hx
      · rw [if_neg hb]
        exact hx

theorem mergePairStep_adds_unsure (recs : List MergeRec) (u : ℚ)
    (i j : Nat) (ri rj : MergeRec)
    (hi : recs.get? i = some ri) (hj : recs.get? j = some rj)
    (hb : ri.block = rj.block) (hf : ri.fam = rj.fam)
    (hti : ri.toks ≠ []) (htj : rj.toks ≠ [])
    (hsl : u ≤ div100 (tokenSetRatioQ (joinSpace ri.toks)
      (joinSpace rj.toks)))
    (hsu : div100 (tokenSetRatioQ (joinSpace ri.toks) (joinSpace rj.toks))
      < autoMergeThreshold)
    (st : List (String × String) × List (String × String)) :
    sortPair ri.name rj.name ∈ (mergePairStep recs u st (i, j)).2 := by
  simp only [mergePairStep, hi, hj]
  rw [if_pos hb, if_neg (by push_neg; exact ⟨hf, hti, htj⟩),
    if_neg (not_le.mpr hsu), if_pos hsl]
  exact setAdd_mem_self _ _

/-- The unsure-range pair is recorded by the pairwise scan. -/
theorem smartMergeScan_unsure_mem (recs : List MergeRec) (u : ℚ)
    (i j : Nat) (ri rj : MergeRec)
    (hi : recs.get? i = some ri) (hj : recs.get? j = some rj)
    (hij : i < j)
    (hb : ri.block = rj.block) (hf : ri.fam = rj.fam)
    (hti : ri.toks ≠ []) (htj : rj.toks ≠ [])
    (hsl : u ≤ div100 (tokenSetRatioQ (joinSpace ri.toks)
      (joinSpace rj.toks)))
    (hsu : div100 (tokenSetRatioQ (joinSpace ri.toks) (joinSpace rj.toks))
      < autoMergeThreshold) :
    sortPair ri.name rj.name ∈ (smartMergeScan recs u).2 := by
  have hjlen : j < recs.length := by
    by_contra h
    push_neg at h
    rw [List.get?_eq_none.mpr h] at hj
    cases hj
  exact foldl_mem_add (mergePairStep recs u)
    (fun st => sortPair ri.name rj.name ∈ st.2)
    (fun st a hst => mergePairStep_unsure_mono recs u st a _ hst)
    (i, j)
    (fun st => mergePairStep_adds_unsure recs u i j ri rj hi hj hb hf hti
      htj hsl hsu st)
    (allPairs recs.length) ([], [])
    ((mem_allPairs recs.length i j).mpr ⟨hij, hjlen⟩)

/-- C3 counterexample: in the three-name table the first two names form a
same-block, same-family pair with similarity `10/13 ∈ [0.70, 0.90)` (an
unsure pair), yet the first name's `Standard_Name` is rewritten to the third
name by a simultaneous auto-merge pair and, having been rewritten, carries
an empty `Not_Sure` flag instead of `"Not Sure"`. -/
theorem c3_counterexample :
    (mkMergeRec "Ma Ab Ha").block = (mkMergeRec "Ma Xy Qr Ha").block ∧
    (mkMergeRec "Ma Ab Ha").fam = (mkMergeRec "Ma Xy Qr Ha").fam ∧
    unsureThresholdDefault ≤
      div100 (tokenSetRatioQ (joinSpace (mkMergeRec "Ma Ab Ha").toks)
        (joinSpace (mkMergeRec "Ma Xy Qr Ha").toks)) ∧
    div100 (tokenSetRatioQ (joinSpace (mkMergeRec "Ma Ab Ha").toks)
        (joinSpace (mkMergeRec "Ma Xy Qr Ha").toks)) < autoMergeThreshold ∧
    smartMergePersons mergeCexNames unsureThresholdDefault =
      [("Ma Ab De Ha", ""), ("Ma Xy Qr Ha", "Not Sure"),
       ("Ma Ab De Ha", "")] ∧
    "Ma Ab De Ha" ≠ "Ma Ab Ha" := by decide

/-- C3 amended: every same-block, equal-family pair with similarity in
`[unsure_threshold, 0.90)` is recorded as an unsure pair; a record of the
pair keeps its `Standard_Name` and carries `Not_Sure = "Not Sure"` provided
its name is not also a key of the auto-merge mapping — a name that
additionally auto-merges with a third record is rewritten and loses the
flag. -/
theorem c3_amended (names : List String) (u : ℚ) (i j : Nat)
    (ri rj : MergeRec)
    (hi : (names.map mkMergeRec).get? i = some ri)
    (hj : (names.map mkMergeRec).get? j = some rj)
    (hij : i < j)
    (hb : ri.block = rj.block) (hf : ri.fam = rj.fam)
    (hti : ri.toks ≠ []) (htj : rj.toks ≠ [])
    (hsl : u ≤ div100 (tokenSetRatioQ (joinSpace ri.toks)
      (joinSpace rj.toks)))
    (hsu : div100 (tokenSetRatioQ (joinSpace ri.toks) (joinSpace rj.toks))
      < autoMergeThreshold) :
    sortPair ri.name rj.name ∈ (smartMergeScan (names.map mkMergeRec) u).2 ∧
    (dictGet (smartMergeScan (names.map mkMergeRec) u).1 ri.name = none →
      (smartMergePersons names u).get? i = some (ri.name, "Not Sure")) ∧
    (dictGet (smartMergeScan (names.map mkMergeRec) u).1 rj.name = none →
      (smartMergePersons names u).get? j = some (rj.name, "Not Sure")) := by
  have hmem := smartMergeScan_unsure_mem (names.map mkMergeRec) u i j ri rj
    hi hj hij hb hf hti htj hsl hsu
  refine ⟨hmem, ?_, ?_⟩
  · intro hnone
    rw [List.get?_map] at hi
    rcases Option.map_eq_some'.mp hi with ⟨ni, hni, hmk⟩
    have hname : ri.name = ni := by
      rw [← hmk]
      rfl
    simp only [smartMergePersons]
    rw [List.get?_map, hni]
    simp only [Option.map_some']
    rw [hname] at hnone hmem
    rw [hnone]
    simp only [Option.getD_none]
    rw [if_pos ?side]
    case side =>
      refine List.mem_flatMap.mpr ⟨sortPair ni rj.name, hmem, ?_⟩
      unfold sortPair
      split <;> simp
    rw [hname]
  · intro hnone
    rw [List.get?_map] at hj
    rcases Option.map_eq_some'.mp hj with ⟨nj, hnj, hmk⟩
    have hname : rj.name = nj := by
      rw [← hmk]
      rfl
    simp only [smartMergePersons]
    rw [List.get?_map, hnj]
    simp only [Option.map_some']
    rw [hname] at hnone hmem
    rw [hnone]
    simp only [Option.getD_none]
    rw [if_pos ?side2]
    case side2 =>
      refine List.mem_flatMap.mpr ⟨sortPair ri.name nj, hmem, ?_⟩
      unfold sortPair
      split <;> simp
    rw [hname]

/-- C3 witness: for the two-name table the unsure pair is recorded, the
mapping has no keys, and both rows keep their names and carry the
`Not_Sure` flag. -/
theorem c3_witness :
    (smartMergePersons ["Ma Ab Ha", "Ma Xy Qr Ha"]
      unsureThresholdDefault).get? 0 = some ("Ma Ab Ha", "Not Sure") ∧
    (smartMergePersons ["Ma Ab Ha", "Ma Xy Qr Ha"]
      unsureThresholdDefault).get? 1 = some ("Ma Xy Qr Ha", "Not Sure") :=
  ⟨(c3_amended ["Ma Ab Ha", "Ma Xy Qr Ha"] unsureThresholdDefault 0 1
      (mkMergeRec "Ma Ab Ha") (mkMergeRec "Ma Xy Qr Ha")
      (by decide) (by decide) (by decide) (by decide) (by decide)
      (by decide) (by decide) (by decide) (by decide)).2.1 (by decide),
   (c3_amended ["Ma Ab Ha", "Ma Xy Qr Ha"] unsureThresholdDefault 0 1
      (mkMergeRec "Ma Ab Ha") (mkMergeRec "Ma Xy Qr Ha")
      (by decide) (by decide) (by decide) (by decide) (by decide)
      (by decide) (by decide) (by decide) (by decide)).2.2 (by decide)⟩

/-! ## C4: lemmas on keep-first deduplication -/

section DedupLemmas

variable {α : Type} (key : α → String)

theorem firstOccBy_subset :
    ∀ (l : List α) (seen : List String) (x : α),
    x ∈ firstOccBy key seen l → x ∈ l := by
  intro l
  induction l with
  | nil => intro seen x h; exact absurd h (by simp [firstOccBy])
  | cons a as ih =>
    intro seen x h
    unfold firstOccBy at h
    by_cases hs : key a ∈ seen
    · rw [if_pos hs] at h
      exact List.mem_cons.mpr (Or.inr (ih seen x h))
    · rw [if_neg hs] at h
      rcases List.mem_cons.mp h with h | h
      · exact List.mem_cons.mpr (Or.inl h)
      · exact List.mem_cons.mpr (Or.inr (ih _ x h))

theorem firstOccBy_keys_mem :
    ∀ (l : List α) (seen : List String) (k : String),
    k ∈ (firstOccBy key seen l).map key ↔
      k ∉ seen ∧ k ∈ l.map key := by
  intro l
  induction l with
  | nil => intro seen k; simp [firstOccBy]
  | cons a as ih =>
    intro seen k
    unfold firstOccBy
    by_cases hs : key a ∈ seen
    · rw [if_pos hs, ih]
      simp only [List.map_cons, List.mem_cons]
      constructor
      · rintro ⟨h1, h2⟩
        exact ⟨h1, Or.inr h2⟩
      · rintro ⟨h1, h2 | h2⟩
        · rw [h2] at h1
          exact absurd hs h1
        · exact ⟨h1, h2⟩
    · rw [if_neg hs]
      simp only [List.map_cons, List.mem_cons, ih]
      constructor
      · rintro (h | ⟨h1, h2⟩)
        · rw [h]
          exact ⟨hs, Or.inl rfl⟩
        · refine ⟨fun hk => h1 (by simp [hk]), Or.inr h2⟩
      · rintro ⟨h1, h2 | h2⟩
        · exact Or.inl h2
        · by_cases hk : k = key a
          · exact Or.inl hk
          · exact Or.inr ⟨by simp [h1, hk], h2⟩

theorem firstOccBy_keys_nodup :
    ∀ (l : List α) (seen : List String),
    ((firstOccBy key seen l).map key).Nodup ∧
      ∀ k ∈ (firstOccBy key seen l).map key, k ∉ seen := by
  intro l
  induction l with
  | nil => intro seen; simp [firstOccBy]
  | cons a as ih =>
    intro seen
    unfold firstOccBy
    by_cases hs : key a ∈ seen
    · rw [if_pos hs]
      exact ih seen
    · rw [if_neg hs]
      simp only [List.map_cons, List.nodup_cons]
      refine ⟨⟨?_, (ih (key a :: seen)).1⟩, ?_⟩
      · intro hmem
        exact ((ih (key a :: seen)).2 (key a) hmem) (by simp)
      · intro k hk
        rcases List.mem_cons.mp hk with hk | hk
        · rw [hk]
          exact hs
        · intro hseen
          exact (ih (key a :: seen)).2 k hk (by simp [hseen])

theorem firstOccBy_find :
    ∀ (l : List α) (seen : List String) (k : String), k ∉ seen →
    (firstOccBy key seen l).find? (fun r => key r = k) =
      l.find? (fun r => key r = k) := by
  intro l
  induction l with
  | nil => intro seen k _; simp [firstOccBy]
  | cons a as ih =>
    intro seen k hk
    unfold firstOccBy
    by_cases hs : key a ∈ seen
    · rw [if_pos hs]
      have hne : key a ≠ k := by
        intro h
        rw [h] at hs
        exact hk hs
      rw [ih seen k hk, List.find?_cons_of_neg _ (by simp [hne])]
    · rw [if_neg hs]
      by_cases hka : key a = k
      · rw [List.find?_cons_of_pos _ (by simp [hka]),
          List.find?_cons_of_pos _ (by simp [hka])]
      · rw [List.find?_cons_of_neg _ (by simp [hka]),
          List.find?_cons_of_neg _ (by simp [hka])]
        exact ih (key a :: seen) k (by simp [hk, Ne.symm hka])

theorem firstOccBy_id :
    ∀ (l : List α) (seen : List String), (l.map key).Nodup →
    (∀ k ∈ l.map key, k ∉ seen) →
    firstOccBy key seen l = l := by
  intro l
  induction l with
  | nil => intro seen _ _; rfl
  | cons a as ih =>
    intro seen hnd hdisj
    unfold firstOccBy
    rw [if_neg (hdisj (key a) (by simp))]
    congr 1
    refine ih (key a :: seen) ?_ ?_
    · simp only [List.map_cons, List.nodup_cons] at hnd
      exact hnd.2
    · intro k hk
      simp only [List.map_cons, List.nodup_cons] at hnd
      intro hmem
      rcases List.mem_cons.mp hmem with h | h
      · rw [h] at hk
        exact hnd.1 hk
      · exact hdisj k (by simp [hk]) h

theorem firstOccBy_length :
    ∀ (l : List α) (seen : List String),
    (firstOccBy key seen l).length =
      ((l.map key).toFinset \ seen.toFinset).card := by
  intro l
  induction l with
  | nil => intro seen; simp [firstOccBy]
  | cons a as ih =>
    intro seen
    unfold firstOccBy
    by_cases hs : key a ∈ seen
    · rw [if_pos hs, ih seen]
      congr 1
      rw [List.map_cons, List.toFinset_cons,
        Finset.insert_sdiff_of_mem _ (List.mem_toFinset.mpr hs)]
    · rw [if_neg hs]
      simp only [List.length_cons, ih (key a :: seen), List.map_cons,
        List.toFinset_cons]
      have hka : key a ∉ seen.toFinset := fun h => hs (List.mem_toFinset.mp h)
      rw [Finset.insert_sdiff_of_not_mem _ hka, Finset.sdiff_insert]
      by_cases hmem : key a ∈ (as.map key).toFinset \ seen.toFinset
      · rw [Finset.insert_eq_self.mpr hmem, Finset.card_erase_of_mem hmem]
        have hpos : 0 < ((as.map key).toFinset \ seen.toFinset).card :=
          Finset.card_pos.mpr ⟨key a, hmem⟩
        omega
      · rw [Finset.card_insert_of_not_mem hmem,
          Finset.erase_eq_of_not_mem hmem]

theorem dedupKeepLast_keys_mem (l : List α) (k : String) :
    k ∈ (dedupKeepLast key l).map key ↔ k ∈ l.map key := by
  unfold dedupKeepLast
  rw [List.map_reverse, List.mem_reverse, firstOccBy_keys_mem]
  simp [List.mem_reverse]

theorem dedupKeepLast_keys_nodup (l : List α) :
    ((dedupKeepLast key l).map key).Nodup := by
  unfold dedupKeepLast
  rw [List.map_reverse, List.nodup_reverse]
  exact (firstOccBy_keys_nodup key l.reverse []).1

theorem dedupKeepLast_subset (l : List α) (x : α)
    (h : x ∈ dedupKeepLast key l) : x ∈ l := by
  unfold dedupKeepLast at h
  rw [List.mem_reverse] at h
  exact List.mem_reverse.mp (firstOccBy_subset key l.reverse [] x h)

theorem dedupKeepLast_length (l : List α) :
    (dedupKeepLast key l).length = (l.map key).toFinset.card := by
  unfold dedupKeepLast
  rw [List.length_reverse, firstOccBy_length]
  simp [List.map_reverse]

theorem dedupKeepLast_id (l : List α) (hnd : (l.map key).Nodup) :
    dedupKeepLast key l = l := by
  unfold dedupKeepLast
  rw [firstOccBy_id, List.reverse_reverse]
  · rw [List.map_reverse, List.nodup_reverse]
    exact hnd
  · simp

theorem find?_eq_head?_filter (p : α → Bool) :
    ∀ l : List α, l.find? p = (l.filter p).head? := by
  intro l
  induction l with
  | nil => rfl
  | cons a as ih =>
    by_cases hp : p a
    · rw [List.find?_cons_of_pos _ hp, List.filter_cons_of_pos hp]
      rfl
    · rw [List.find?_cons_of_neg _ (by simp [hp]),
        List.filter_cons_of_neg (by simp [hp]), ih]

theorem find?_of_nodup_keys :
    ∀ (L : List α), ((L.map key).Nodup) → ∀ (x : α) (k : String),
    x ∈ L → key x = k →
    L.find? (fun r => key r = k) = some x := by
  intro L
  induction L with
  | nil => intro _ x k hx; simp at hx
  | cons a as ih =>
    intro hnd x k hx hk
    simp only [List.map_cons, List.nodup_cons] at hnd
    by_cases hka : key a = k
    · rw [List.find?_cons_of_pos _ (by simp [hka])]
      rcases List.mem_cons.mp hx with hx | hx
      · rw [hx]
      · exfalso
        apply hnd.1
        rw [← hk] at hka
        rw [hka]
        exact List.mem_map.mpr ⟨x, hx, rfl⟩
    · rw [List.find?_cons_of_neg _ (by simp [hka])]
      rcases List.mem_cons.mp hx with hx | hx
      · rw [hx] at hk
        exact absurd hk hka
      · exact ih hnd.2 x k hx hk

theorem dedupKeepLast_find (L : List α) (k : String)
    (hk : k ∈ L.map key) :
    (dedupKeepLast key L).find? (fun r => key r = k) =
      (L.filter (fun r => key r = k)).getLast? := by
  have hrev : (firstOccBy key [] L.reverse).find? (fun r => key r = k) =
      L.reverse.find? (fun r => key r = k) :=
    firstOccBy_find key L.reverse [] k (by simp)
  have hlast : L.reverse.find? (fun r => key r = k) =
      (L.filter (fun r => key r = k)).getLast? := by
    rw [find?_eq_head?_filter, List.filter_reverse, List.head?_reverse]
  cases hfound : (L.filter (fun r => key r = k)).getLast? with
  | none =>
    exfalso
    rcases List.mem_map.mp hk with ⟨r, hr, hkr⟩
    have hrf : r ∈ L.filter (fun r => key r = k) :=
      List.mem_filter.mpr ⟨hr, by simp [hkr]⟩
    have : L.filter (fun r => key r = k) ≠ [] := by
      intro h
      rw [h] at hrf
      simp at hrf
    rw [List.getLast?_eq_none_iff] at hfound
    exact this hfound
  | some x =>
    have hx : (firstOccBy key [] L.reverse).find? (fun r => key r = k) =
        some x := by
      rw [hrev, hlast, hfound]
    have hxmem : x ∈ firstOccBy key [] L.reverse :=
      List.mem_of_find?_eq_some hx
    have hxkey : key x = k := by
      have := List.find?_some hx
      simpa using this
    refine find?_of_nodup_keys key (dedupKeepLast key L)
      (dedupKeepLast_keys_nodup key L) x k ?_ hxkey
    unfold dedupKeepLast
    rw [List.mem_reverse]
    exact hxmem

end DedupLemmas

/-! ## C4: lemmas on the stable sort by `Alias_Clean` -/

theorem ltCharList_irrefl : ∀ s : List Char, ltCharList s s = false := by
  intro s
  induction s with
  | nil => rfl
  | cons c cs ih =>
    unfold ltCharList
    simp [ih]

theorem ltStr_irrefl (s : String) : ltStr s s = false :=
  ltCharList_irrefl s.toList

theorem mem_insertRowSorted (x : GRow) :
    ∀ (l : List GRow) (y : GRow),
    y ∈ insertRowSorted x l ↔ y = x ∨ y ∈ l := by
  intro l
  induction l with
  | nil => intro y; simp [insertRowSorted]
  | cons a as ih =>
    intro y
    unfold insertRowSorted
    by_cases hle : rowKeyLe x a
    · rw [if_pos hle]
      simp only [List.mem_cons]
    · rw [if_neg hle]
      simp only [List.mem_cons, ih]
      tauto

theorem length_insertRowSorted (x : GRow) :
    ∀ l : List GRow, (insertRowSorted x l).length = l.length + 1 := by
  intro l
  induction l with
  | nil => rfl
  | cons a as ih =>
    unfold insertRowSorted
    by_cases hle : rowKeyLe x a
    · rw [if_pos hle]
      simp
    · rw [if_neg hle]
      simp only [List.length_cons, ih]

theorem mem_sortByAlias (l : List GRow) (y : GRow) :
    y ∈ sortByAlias l ↔ y ∈ l := by
  induction l with
  | nil => simp [sortByAlias]
  | cons a as ih =>
    unfold sortByAlias at ih ⊢
    simp only [List.foldr_cons, mem_insertRowSorted, ih, List.mem_cons]

theorem length_sortByAlias (l : List GRow) :
    (sortByAlias l).length = l.length := by
  induction l with
  | nil => rfl
  | cons a as ih =>
    unfold sortByAlias at ih ⊢
    simp only [List.foldr_cons, length_insertRowSorted, ih,
      List.length_cons]

theorem filter_insertRowSorted (x : GRow) (k : String) :
    ∀ l : List GRow,
    (insertRowSorted x l).filter (fun r => r.aliasClean = k) =
      if x.aliasClean = k then
        x :: l.filter (fun r => r.aliasClean = k)
      else l.filter (fun r => r.aliasClean = k) := by
  intro l
  induction l with
  | nil =>
    by_cases hx : x.aliasClean = k
    · rw [if_pos hx]
      simp [insertRowSorted, List.filter, hx]
    · rw [if_neg hx]
      simp [insertRowSorted, List.filter, hx]
  | cons a as ih =>
    unfold insertRowSorted
    by_cases hle : rowKeyLe x a
    · rw [if_pos hle]
      by_cases hx : x.aliasClean = k
      · rw [if_pos hx, List.filter_cons_of_pos (by simp [hx])]
      · rw [if_neg hx, List.filter_cons_of_neg (by simp [hx])]
    · rw [if_neg hle]
      have hlt : ltStr a.aliasClean x.aliasClean = true := by
        unfold rowKeyLe at hle
        simpa using hle
      by_cases hx : x.aliasClean = k
      · have ha : a.aliasClean ≠ k := by
          intro hak
          rw [hak, hx] at hlt
          rw [ltStr_irrefl] at hlt
          cases hlt
        rw [if_pos hx, List.filter_cons_of_neg (by simp [ha]),
          List.filter_cons_of_neg (by simp [ha]), ih, if_pos hx]
      · rw [if_neg hx]
        by_cases ha : a.aliasClean = k
        · rw [List.filter_cons_of_pos (by simp [ha]),
            List.filter_cons_of_pos (by simp [ha]), ih, if_neg hx]
        · rw [List.filter_cons_of_neg (by simp [ha]),
            List.filter_cons_of_neg (by simp [ha]), ih, if_neg hx]

theorem filter_sortByAlias (l : List GRow) (k : String) :
    (sortByAlias l).filter (fun r => r.aliasClean = k) =
      l.filter (fun r => r.aliasClean = k) := by
  induction l with
  | nil => rfl
  | cons a as ih =>
    unfold sortByAlias at ih ⊢
    simp only [List.foldr_cons]
    rw [filter_insertRowSorted]
    by_cases ha : a.aliasClean = k
    · rw [if_pos ha, ih, List.filter_cons_of_pos (by simp [ha])]
    · rw [if_neg ha, ih, List.filter_cons_of_neg (by simp [ha])]

theorem sortByAlias_keys_toFinset (l : List GRow) :
    ((sortByAlias l).map GRow.aliasClean).toFinset =
      (l.map GRow.aliasClean).toFinset := by
  ext k
  simp only [List.mem_toFinset, List.mem_map]
  constructor
  · rintro ⟨r, hr, hk⟩
    exact ⟨r, (mem_sortByAlias l r).mp hr, hk⟩
  · rintro ⟨r, hr, hk⟩
    exact ⟨r, (mem_sortByAlias l r).mpr hr, hk⟩

/-! ## C4: the learn merge -/

theorem perm_insertRowSorted (x : GRow) :
    ∀ l : List GRow, (insertRowSorted x l).Perm (x :: l) := by
  intro l
  induction l with
  | nil => exact List.Perm.refl _
  | cons a as ih =>
    unfold insertRowSorted
    by_cases hle : rowKeyLe x a
    · rw [if_pos hle]
    · rw [if_neg hle]
      exact (ih.cons a).trans (List.Perm.swap x a as)

theorem sortByAlias_perm : ∀ l : List GRow, (sortByAlias l).Perm l := by
  intro l
  induction l with
  | nil => exact List.Perm.refl _
  | cons a as ih =>
    unfold sortByAlias at ih ⊢
    simp only [List.foldr_cons]
    exact (perm_insertRowSorted a _).trans (ih.cons a)

theorem revProcess_alias (rev : List RevRow) :
    ∀ r ∈ revProcess rev, r.aliasClean = cleanName r.biName true := by
  intro r h
  rcases List.mem_filterMap.mp h with ⟨raw, _, hmk⟩
  cases hb : raw.biName with
  | none =>
    rw [hb] at hmk
    simp at hmk
  | some b =>
    cases hs : raw.stdName with
    | none =>
      rw [hb, hs] at hmk
      simp at hmk
    | some s =>
      rw [hb, hs] at hmk
      simp only [Option.some.injEq] at hmk
      rw [← hmk]

theorem updateGoldenRel_rows (base : List GRow) (rev : List RevRow)
    (out : List GRow) (h : updateGoldenFromReview base rev out) :
    ∀ r ∈ out, r ∈ base ++ revProcess rev := by
  rcases h with ⟨s, hperm, _, hout⟩
  intro r hr
  rw [hout] at hr
  exact hperm.mem_iff.mp (dedupKeepLast_subset _ _ r hr)

theorem updateGoldenRel_keys_mem (base : List GRow) (rev : List RevRow)
    (out : List GRow) (h : updateGoldenFromReview base rev out) :
    ∀ k, k ∈ out.map GRow.aliasClean ↔
      k ∈ (base ++ revProcess rev).map GRow.aliasClean := by
  rcases h with ⟨s, hperm, _, hout⟩
  intro k
  rw [hout, dedupKeepLast_keys_mem]
  exact (hperm.map GRow.aliasClean).mem_iff

theorem updateGoldenRel_nodup (base : List GRow) (rev : List RevRow)
    (out : List GRow) (h : updateGoldenFromReview base rev out) :
    (out.map GRow.aliasClean).Nodup := by
  rcases h with ⟨s, _, _, hout⟩
  rw [hout]
  exact dedupKeepLast_keys_nodup _ _

theorem updateGoldenRel_length (base : List GRow) (rev : List RevRow)
    (out : List GRow) (h : updateGoldenFromReview base rev out) :
    out.length =
      ((base ++ revProcess rev).map GRow.aliasClean).toFinset.card := by
  rcases h with ⟨s, hperm, _, hout⟩
  rw [hout, dedupKeepLast_length]
  congr 1
  exact List.toFinset_eq_of_perm _ _ (hperm.map GRow.aliasClean)

theorem updateGoldenRel_find (base : List GRow) (rev : List RevRow)
    (out : List GRow) (h : updateGoldenFromReview base rev out)
    (k : String) (hk : k ∈ (base ++ revProcess rev).map GRow.aliasClean) :
    ∃ r, out.find? (fun g => g.aliasClean = k) = some r ∧
      r ∈ (base ++ revProcess rev).filter (fun g => g.aliasClean = k) := by
  rcases h with ⟨s, hperm, _, hout⟩
  have hks : k ∈ s.map GRow.aliasClean :=
    (hperm.map GRow.aliasClean).mem_iff.mpr hk
  have hfind := dedupKeepLast_find GRow.aliasClean s k hks
  rcases List.mem_map.mp hks with ⟨r0, hr0, hkr0⟩
  have hne : s.filter (fun g => g.aliasClean = k) ≠ [] := by
    intro hnil
    have hmem : r0 ∈ s.filter (fun g => g.aliasClean = k) :=
      List.mem_filter.mpr ⟨hr0, by simp [hkr0]⟩
    rw [hnil] at hmem
    simp at hmem
  refine ⟨(s.filter (fun g => g.aliasClean = k)).getLast hne, ?_, ?_⟩
  · rw [hout, hfind]
    exact List.getLast?_eq_getLast _ hne
  · exact (hperm.filter _).mem_iff.mp (List.getLast_mem hne)

theorem reloadGolden_id (t : List GRow)
    (hinv : ∀ r ∈ t, r.aliasClean = cleanName r.biName true)
    (hne : ∀ r ∈ t, r.biName ≠ "" ∧ r.standardName ≠ "")
    (hnd : (t.map GRow.aliasClean).Nodup) :
    reloadGolden t = t := by
  unfold reloadGolden
  have hfilter : t.filter
      (fun r => !(r.biName = "") && !(r.standardName = "")) = t := by
    rw [List.filter_eq_self]
    intro r hr
    have h1 := (hne r hr).1
    have h2 := (hne r hr).2
    simp [h1, h2]
  rw [hfilter]
  clear hfilter
  have hmap : t.map
      (fun r => { r with aliasClean := cleanName r.biName true }) = t := by
    induction t with
    | nil => rfl
    | cons a as ih =>
      simp only [List.map_cons]
      congr 1
      · have ha := hinv a (by simp)
        cases a
        simp only [GRow.mk.injEq] at ha ⊢
        simp [ha]
      · refine ih (fun r hr => hinv r (by simp [hr]))
          (fun r hr => hne r (by simp [hr])) ?_
        simp only [List.map_cons, List.nodup_cons] at hnd
        exact hnd.2
  rw [hmap]
  exact dedupKeepLast_id _ t hnd

/-- C4 counterexample: `update_golden_from_review` sorts with pandas'
default quicksort, which is not stable, so the model admits every key-sorted
permutation of the concatenated rows; it admits an execution in which, at
the conflicting key `"Ali Hassan"`, the tied reviewed row is placed before
the tied base row, `keep="last"` retains the base row, and the claimed
reviewed-wins equation fails. -/
theorem c4_counterexample :
    ∃ out, updateGoldenFromReview learnBase learnRev out ∧
      out.find? (fun g => g.aliasClean = "Ali Hassan") ≠
        ((revProcess learnRev).filter
          (fun g => g.aliasClean = "Ali Hassan")).getLast? := by
  refine ⟨dedupKeepLast GRow.aliasClean learnSortCex,
    ⟨learnSortCex, ?_, by decide, rfl⟩, by decide⟩
  have hm : learnBase ++ revProcess learnRev =
      [learnBaseAli, learnBaseOmar, learnRevAli, learnRevTarek] := by decide
  rw [hm]
  exact (List.Perm.swap learnBaseAli learnRevAli
      [learnBaseOmar, learnRevTarek]).trans
    (List.Perm.cons learnBaseAli
      (List.Perm.swap learnBaseOmar learnRevAli [learnRevTarek]))

/-- C4: every admitted output of `update_golden_from_review` keeps exactly
one row per `Alias_Clean` key of the concatenated base and reviewed rows
(same key set, no duplicate keys, row count equal to the number of distinct
keys), every kept row is one of the merged rows, the row found at each key
is a merged row carrying that key — on a key held by both a base and a
reviewed row it is not determined which one, since the sort is unstable —
and a key present only among the reviewed rows resolves to a reviewed row;
a second run over the reloaded output with the same reviewed rows yields
the same row count and the same key set (the reload drops rows with blank
required cells, so the base and reviewed cells are assumed non-blank). -/
theorem c4_amended (base : List GRow) (rev : List RevRow)
    (hbase : ∀ r ∈ base, r.aliasClean = cleanName r.biName true ∧
      r.biName ≠ "" ∧ r.standardName ≠ "")
    (hrevne : ∀ r ∈ revProcess rev, r.biName ≠ "" ∧ r.standardName ≠ "")
    (out : List GRow) (hout : updateGoldenFromReview base rev out) :
    (∀ k, k ∈ out.map GRow.aliasClean ↔
      k ∈ (base ++ revProcess rev).map GRow.aliasClean) ∧
    (out.map GRow.aliasClean).Nodup ∧
    out.length =
      ((base ++ revProcess rev).map GRow.aliasClean).toFinset.card ∧
    (∀ r ∈ out, r ∈ base ++ revProcess rev) ∧
    (∀ k, k ∈ (base ++ revProcess rev).map GRow.aliasClean →
      ∃ r, out.find? (fun g => g.aliasClean = k) = some r ∧
        r ∈ base ++ revProcess rev ∧ r.aliasClean = k) ∧
    (∀ k, k ∈ (revProcess rev).map GRow.aliasClean →
      k ∉ base.map GRow.aliasClean →
      ∃ r, out.find? (fun g => g.aliasClean = k) = some r ∧
        r ∈ revProcess rev ∧ r.aliasClean = k) ∧
    (∀ out2, updateGoldenFromReview (reloadGolden out) rev out2 →
      out2.length = out.length ∧
      ∀ k, k ∈ out2.map GRow.aliasClean ↔
        k ∈ out.map GRow.aliasClean) := by
  have hkeys := updateGoldenRel_keys_mem base rev out hout
  have hnd := updateGoldenRel_nodup base rev out hout
  have hlen := updateGoldenRel_length base rev out hout
  have hrows := updateGoldenRel_rows base rev out hout
  refine ⟨hkeys, hnd, hlen, hrows, ?_, ?_, ?_⟩
  · intro k hk
    rcases updateGoldenRel_find base rev out hout k hk with ⟨r, hfind, hrf⟩
    have hrm := List.mem_filter.mp hrf
    exact ⟨r, hfind, hrm.1, by simpa using hrm.2⟩
  · intro k hkrev hkbase
    have hk : k ∈ (base ++ revProcess rev).map GRow.aliasClean := by
      rw [List.map_append]
      exact List.mem_append.mpr (Or.inr hkrev)
    rcases updateGoldenRel_find base rev out hout k hk with ⟨r, hfind, hrf⟩
    have hrm := List.mem_filter.mp hrf
    have hrk : r.aliasClean = k := by simpa using hrm.2
    rcases List.mem_append.mp hrm.1 with hb | hrv
    · exact absurd (List.mem_map.mpr ⟨r, hb, hrk⟩) hkbase
    · exact ⟨r, hfind, hrv, hrk⟩
  · intro out2 hout2
    have hreload : reloadGolden out = out := by
      refine reloadGolden_id out ?_ ?_ hnd
      · intro r hr
        rcases List.mem_append.mp (hrows r hr) with hb | hrv
        · exact (hbase r hb).1
        · exact revProcess_alias rev r hrv
      · intro r hr
        rcases List.mem_append.mp (hrows r hr) with hb | hrv
        · exact ⟨(hbase r hb).2.1, (hbase r hb).2.2⟩
        · exact hrevne r hrv
    rw [hreload] at hout2
    have hsub : ∀ k ∈ (revProcess rev).map GRow.aliasClean,
        k ∈ out.map GRow.aliasClean := by
      intro k hk
      rw [hkeys k, List.map_append]
      exact List.mem_append.mpr (Or.inr hk)
    constructor
    · have h2 := updateGoldenRel_length out rev out2 hout2
      rw [h2]
      have hTF : ((out ++ revProcess rev).map GRow.aliasClean).toFinset =
          (out.map GRow.aliasClean).toFinset := by
        ext x
        simp only [List.map_append, List.toFinset_append, Finset.mem_union,
          List.mem_toFinset]
        constructor
        · rintro (h | h)
          · exact h
          · exact hsub x h
        · exact Or.inl
      rw [hTF, List.toFinset_card_of_nodup hnd, List.length_map]
    · intro k
      rw [updateGoldenRel_keys_mem out rev out2 hout2 k, List.map_append,
        List.mem_append]
      constructor
      · rintro (h | h)
        · exact h
        · exact hsub k h
      · exact Or.inl

/-- C4 witness: the stable-insertion-sort execution is an admitted run on
the concrete base and reviewed fixtures, and at the reviewed-only key
`clean_name("Dr Tarek Aly")` its output holds a reviewed row with that
key. -/
theorem c4_witness :
    updateGoldenFromReview learnBase learnRev
      (updateGoldenRun learnBase learnRev) ∧
    ∃ r, (updateGoldenRun learnBase learnRev).find?
        (fun g => g.aliasClean = cleanName "Dr Tarek Aly" true) = some r ∧
      r ∈ revProcess learnRev ∧
      r.aliasClean = cleanName "Dr Tarek Aly" true := by
  have hrel : updateGoldenFromReview learnBase learnRev
      (updateGoldenRun learnBase learnRev) :=
    ⟨sortByAlias (learnBase ++ revProcess learnRev),
      sortByAlias_perm _, by decide, rfl⟩
  exact ⟨hrel,
    (c4_amended learnBase learnRev (by decide) (by decide)
        (updateGoldenRun learnBase learnRev) hrel).2.2.2.2.2.1
      (cleanName "Dr Tarek Aly" true) (by decide) (by decide)⟩

end DoctorCleaner
